import Mathlib

/-!
mse-tools: the `mse_webm_remuxer` command

A shallow embedding of `cmd/mse_webm_remuxer/mse_webm_remuxer.go`.

`main` is modelled as a function from its command line and the answers of
its environment (the file system, the websocket dialer, the input reader and
the EBML parser it drives) to the ordered trace of the calls it makes and the
way it terminates.
-/

set_option autoImplicit false

namespace MseWebmRemuxer

/-! ## Data model of the command -/

/-- One Go `byte`. -/
abbrev Byte := Fin 256

/-- The `err` result of `in.Read`: `nil`, `io.EOF`, `io.ErrClosedPipe`, or
any other error value. -/
inductive ReadErr
  | nil
  | EOF
  | ErrClosedPipe
  | other
  deriving DecidableEq, Repr

/-- The pair `(bytesRead, err)` returned by one `in.Read(buf[:])`, together
with the bytes the call stored at the front of `buf`; `bytesRead` is
`bytes.length`. -/
structure ReadResult where
  bytes : List Byte
  err : ReadErr
  deriving DecidableEq, Repr

/-- The `bytesRead` result of a read. -/
def ReadResult.bytesRead (r : ReadResult) : Nat := r.bytes.length

/-- The channel a writer is built on. -/
inductive Sink
  | stdout
  | websocket (url : String)
  | file (name : String)
  deriving DecidableEq, Repr

/-- The two constructors of `*ebml.Writer` used by `main`. -/
inductive Writer
  | NewNonSeekableWriter (s : Sink)
  | NewWriter (s : Sink)
  deriving DecidableEq, Repr

/-- Element identifiers: the seven constants named in `main`
(`ebml.IdHeader`, `webm.IdSegment`, ...) and every other identifier.  The
seven constants are the keys of one Go map literal, so they are pairwise
different. -/
inductive ElementId
  | IdHeader
  | IdSegment
  | IdInfo
  | IdTracks
  | IdCluster
  | IdTimecode
  | IdSimpleBlock
  | unregistered (raw : Nat)
  deriving DecidableEq, Repr

/-- The element kinds `ebml.TypeBinary`, `ebml.TypeList`, `ebml.TypeUint`. -/
inductive ElementType
  | TypeBinary
  | TypeList
  | TypeUint
  deriving DecidableEq, Repr

/-- The messages `main` and `checkError` pass to `log.Printf`. -/
inductive LogMsg
  | invalidMinimumClusterDuration
  | usage
  | error (str : String)
  | sameFilenames
  | failedToCreate (name : String)
  | parserError
  deriving DecidableEq, Repr

/-- The calls `main` makes, in program order. -/
inductive Event
  | log (m : LogMsg)
  | exit (code : Int)
  | useStdin
  | osOpen (name : String)
  | urlParse (raw : String)
  | websocketDial (url : String)
  | osCreate (name : String)
  | newNonSeekableWriter (s : Sink)
  | newWriter (s : Sink)
  | newDemuxerClient (out : Writer) (minClusterDurationInMS : Int)
  | newParser (typeInfo : List (ElementId × ElementType))
  | read (r : ReadResult)
  | append (chunk : List Byte) (ok : Bool)
  | endOfData
  deriving DecidableEq, Repr

/-- How a run ends: `main` returned, `os.Exit` was called, the slice
expression `buf[0:bytesRead]` was out of range, or the read loop is still
running because the script of read outcomes was used up. -/
inductive Outcome
  | returned
  | exited (code : Int)
  | sliceOutOfRange
  | reading
  deriving DecidableEq, Repr

/-- The two parser methods the read loop calls, over a parser state `σ`. -/
structure Parser (σ : Type) where
  Append : σ → List Byte → σ × Bool
  EndOfData : σ → σ

/-- The answers of the environment of one run. -/
structure Env (σ : Type) where
  /-- whether `os.Open name` succeeds -/
  openOk : String → Bool
  /-- the result of `url.Parse raw` followed by `url.String()` -/
  parseUrl : String → Option String
  /-- whether `websocket.Dial url "" origin` succeeds -/
  dialOk : String → Bool
  /-- whether `os.Create name` succeeds -/
  createOk : String → Bool
  /-- the parser returned by `ebml.NewParser` -/
  parser0 : σ
  /-- the successive results of `in.Read` -/
  reads : List ReadResult

/-- The command line after `flag.Parse`: the value of `-cm` when given, and
`flag.Args()`. -/
structure CommandLine where
  cm : Option Int
  args : List String

/-- `flag.Arg(i)`: the i-th remaining argument, or the empty string. -/
def flagArg (args : List String) (i : Nat) : String := args.getD i ""

/-- `strings.HasPrefix(s, p)`. -/
def HasPrefix (s p : String) : Bool := p.data.isPrefixOf s.data

/-! ## The read loop (lines 102-115) -/

/-- The variables of the read loop and the calls made so far. -/
structure LoopState (σ : Type) where
  done : Bool
  buf : List Byte
  parser : σ
  trace : List Event
  outcome : Outcome

/-- Whether `err == io.EOF || err == io.ErrClosedPipe`. -/
def isEndOfStream (e : ReadErr) : Bool :=
  e == ReadErr.EOF || e == ReadErr.ErrClosedPipe

/-- One iteration of the loop body, for the read result `r`. -/
def iteration {σ : Type} (P : Parser σ) (s : LoopState σ) (r : ReadResult) :
    LoopState σ :=
  let buf := r.bytes ++ s.buf.drop r.bytesRead
  let trace := s.trace ++ [Event.read r]
  if isEndOfStream r.err then
    { done := true, buf := buf, parser := P.EndOfData s.parser,
      trace := trace ++ [Event.endOfData], outcome := Outcome.returned }
  else if 1024 < r.bytesRead then
    { done := true, buf := buf, parser := s.parser, trace := trace,
      outcome := Outcome.sliceOutOfRange }
  else
    let chunk := buf.take r.bytesRead
    let res := P.Append s.parser chunk
    if !res.2 then
      { done := true, buf := buf, parser := res.1,
        trace := trace ++ [Event.append chunk false, Event.log LogMsg.parserError],
        outcome := Outcome.returned }
    else
      { done := false, buf := buf, parser := res.1,
        trace := trace ++ [Event.append chunk true], outcome := Outcome.reading }

/-- The loop `for done := false; !done; { ... }` run on a script of read
results: it stops when `done` is set, and is still reading when the script
is used up first. -/
def readLoop {σ : Type} (P : Parser σ) : List ReadResult → LoopState σ → LoopState σ
  | [], s => s
  | r :: rs, s => if s.done then s else readLoop P rs (iteration P s r)

/-- The loop state on entry: `done := false`, `buf := [1024]byte{}`. -/
def loopInit {σ : Type} (p : σ) : LoopState σ :=
  { done := false, buf := List.replicate 1024 0, parser := p, trace := [],
    outcome := Outcome.reading }

/-! ## `main` -/

/-- The element type table `typeInfo` built by `main` (lines 89-97). -/
def typeInfo : List (ElementId × ElementType) :=
  [ (ElementId.IdHeader, ElementType.TypeBinary),
    (ElementId.IdSegment, ElementType.TypeList),
    (ElementId.IdInfo, ElementType.TypeBinary),
    (ElementId.IdTracks, ElementType.TypeBinary),
    (ElementId.IdCluster, ElementType.TypeList),
    (ElementId.IdTimecode, ElementType.TypeUint),
    (ElementId.IdSimpleBlock, ElementType.TypeBinary) ]

/-- Indexing the map: `typeInfo[id]` with its presence flag. -/
def typeInfoLookup (id : ElementId) : Option ElementType :=
  (typeInfo.find? (fun e => e.1 == id)).map Prod.snd

/-- The result of a run: the calls made and how it ended, with the final
parser state when the read loop was entered. -/
structure Run (σ : Type) where
  trace : List Event
  outcome : Outcome
  parser : Option σ

/-- Lines 52-57: select the input.  The result is the calls made and whether
the input is open; it is not when `checkError` ends the run. -/
def openInput {σ : Type} (env : Env σ) (inputArg : String) : List Event × Bool :=
  if inputArg = "-" then ([Event.useStdin], true)
  else if env.openOk inputArg then ([Event.osOpen inputArg], true)
  else ([Event.osOpen inputArg, Event.log (LogMsg.error "Open input"), Event.exit (-1)], false)

/-- Lines 59-84: build the writer `out`.  The result is the calls made and
either the writer or the way the run ended. -/
def createOutput {σ : Type} (env : Env σ) (inputArg outputArg : String) :
    List Event × (Writer ⊕ Outcome) :=
  if outputArg = "-" then
    ([Event.newNonSeekableWriter Sink.stdout],
      Sum.inl (Writer.NewNonSeekableWriter Sink.stdout))
  else if inputArg = outputArg then
    ([Event.log LogMsg.sameFilenames], Sum.inr Outcome.returned)
  else if HasPrefix outputArg "ws://" then
    match env.parseUrl outputArg with
    | none =>
      ([Event.urlParse outputArg, Event.log (LogMsg.error "Output url"), Event.exit (-1)],
        Sum.inr (Outcome.exited (-1)))
    | some url =>
      if env.dialOk url then
        ([Event.urlParse outputArg, Event.websocketDial url,
          Event.newNonSeekableWriter (Sink.websocket url)],
          Sum.inl (Writer.NewNonSeekableWriter (Sink.websocket url)))
      else
        ([Event.urlParse outputArg, Event.websocketDial url,
          Event.log (LogMsg.error "WebSocket Dial"), Event.exit (-1)],
          Sum.inr (Outcome.exited (-1)))
  else if env.createOk outputArg then
    ([Event.osCreate outputArg, Event.newWriter (Sink.file outputArg)],
      Sum.inl (Writer.NewWriter (Sink.file outputArg)))
  else
    ([Event.osCreate outputArg, Event.log (LogMsg.failedToCreate outputArg), Event.exit 1],
      Sum.inr (Outcome.exited 1))

/-- The function `main`. -/
def main {σ : Type} (P : Parser σ) (env : Env σ) (cl : CommandLine) : Run σ :=
  let minClusterDurationInMS : Int := cl.cm.getD 250
  if minClusterDurationInMS < 0 ∨ minClusterDurationInMS > 30000 then
    { trace := [Event.log LogMsg.invalidMinimumClusterDuration, Event.exit (-1)],
      outcome := Outcome.exited (-1), parser := none }
  else if cl.args.length < 2 then
    { trace := [Event.log LogMsg.usage], outcome := Outcome.returned, parser := none }
  else
    let inputArg := flagArg cl.args 0
    let outputArg := flagArg cl.args 1
    let opened := openInput env inputArg
    if !opened.2 then
      { trace := opened.1, outcome := Outcome.exited (-1), parser := none }
    else
      match createOutput env inputArg outputArg with
      | (evs, Sum.inr o) => { trace := opened.1 ++ evs, outcome := o, parser := none }
      | (evs, Sum.inl out) =>
        let setup := opened.1 ++ evs ++
          [Event.newDemuxerClient out minClusterDurationInMS, Event.newParser typeInfo]
        let s := readLoop P env.reads (loopInit env.parser0)
        { trace := setup ++ s.trace, outcome := s.outcome, parser := some s.parser }

/-! ## Reading a trace -/

/-- The chunks passed to `parser.Append`, in call order. -/
def chunksOf : List Event → List (List Byte)
  | [] => []
  | Event.append c _ :: t => c :: chunksOf t
  | _ :: t => chunksOf t

/-- The results of the reads performed, in call order. -/
def readsOf : List Event → List ReadResult
  | [] => []
  | Event.read r :: t => r :: readsOf t
  | _ :: t => readsOf t

/-- The calls of the iterations that read `rs` and appended every chunk
with success. -/
def okIterations : List ReadResult → List Event
  | [] => []
  | r :: rs => Event.read r :: Event.append r.bytes true :: okIterations rs

/-- A read that reaches `parser.Append`: no end of stream, and a count that
fits the buffer. -/
def GoodRead (r : ReadResult) : Prop :=
  isEndOfStream r.err = false ∧ r.bytesRead ≤ 1024

/-- The four forms the calls of the read loop can take. -/
inductive LoopShape : List Event → Bool → Outcome → Prop
  | reading (rs : List ReadResult) (h : ∀ r ∈ rs, GoodRead r) :
      LoopShape (okIterations rs) false Outcome.reading
  | endOfStream (rs : List ReadResult) (h : ∀ r ∈ rs, GoodRead r) (r : ReadResult)
      (hr : isEndOfStream r.err = true) :
      LoopShape (okIterations rs ++ [Event.read r, Event.endOfData]) true Outcome.returned
  | parserError (rs : List ReadResult) (h : ∀ r ∈ rs, GoodRead r) (r : ReadResult)
      (hr : GoodRead r) :
      LoopShape (okIterations rs ++
        [Event.read r, Event.append r.bytes false, Event.log LogMsg.parserError])
        true Outcome.returned
  | sliceOutOfRange (rs : List ReadResult) (h : ∀ r ∈ rs, GoodRead r) (r : ReadResult)
      (hr : isEndOfStream r.err = false) (hl : 1024 < r.bytesRead) :
      LoopShape (okIterations rs ++ [Event.read r]) true Outcome.sliceOutOfRange

/-- Exchange `io.EOF` and `io.ErrClosedPipe`. -/
def swapEndErr : ReadErr → ReadErr
  | ReadErr.EOF => ReadErr.ErrClosedPipe
  | ReadErr.ErrClosedPipe => ReadErr.EOF
  | e => e

/-- A read result with the two end-of-stream errors exchanged. -/
def swapEndRead (r : ReadResult) : ReadResult := { r with err := swapEndErr r.err }

/-- A call with the two end-of-stream errors exchanged in a read result. -/
def swapEndEvent : Event → Event
  | Event.read r => Event.read (swapEndRead r)
  | e => e

/-- A loop state with the two end-of-stream errors exchanged in its trace. -/
def swapEndState {σ : Type} (s : LoopState σ) : LoopState σ :=
  { s with trace := s.trace.map swapEndEvent }

/-! ## Writer variants, in the words of the specification -/

/-- The three writers of the specification: non-seekable on standard
output, non-seekable on a websocket connection, seekable on a local file. -/
inductive WriterVariant
  | nonSeekableStdout
  | nonSeekableWebsocket
  | seekableFile
  deriving DecidableEq, Repr

/-- The variant the specification assigns to an output argument. -/
def variantOf (outputArg : String) : WriterVariant :=
  if outputArg = "-" then WriterVariant.nonSeekableStdout
  else if HasPrefix outputArg "ws://" then WriterVariant.nonSeekableWebsocket
  else WriterVariant.seekableFile

/-- The variant of a constructed writer; `none` for a combination of
constructor and sink the specification does not list. -/
def Writer.variant : Writer → Option WriterVariant
  | Writer.NewNonSeekableWriter Sink.stdout => some WriterVariant.nonSeekableStdout
  | Writer.NewNonSeekableWriter (Sink.websocket _) => some WriterVariant.nonSeekableWebsocket
  | Writer.NewWriter (Sink.file _) => some WriterVariant.seekableFile
  | _ => none

/-- Calls that create or connect an output: `os.Create`, `url.Parse`,
`websocket.Dial` and the two writer constructors. -/
def Event.isOutputCall : Event → Bool
  | Event.osCreate _ => true
  | Event.urlParse _ => true
  | Event.websocketDial _ => true
  | Event.newNonSeekableWriter _ => true
  | Event.newWriter _ => true
  | _ => false

/-- Calls that build or drive the remuxer and the parser. -/
def Event.isRemuxCall : Event → Bool
  | Event.newDemuxerClient _ _ => true
  | Event.newParser _ => true
  | Event.read _ => true
  | Event.append _ _ => true
  | Event.endOfData => true
  | _ => false

/-- Calls that select the input: `os.Stdin` or `os.Open`. -/
def Event.isInputCall : Event → Bool
  | Event.useStdin => true
  | Event.osOpen _ => true
  | _ => false

/-- The value of `minClusterDurationInMS` after `flag.Parse`. -/
def minClusterDuration (cl : CommandLine) : Int := cl.cm.getD 250

/-! ## Sample environment -/

/-- A parser that records the chunks it is given and rejects a chunk that
starts with the byte 255. -/
def sampleParser : Parser (List (List Byte)) where
  Append := fun st c => (st ++ [c], c.head? != some 255)
  EndOfData := fun st => st ++ [[]]

/-- An environment in which every file operation succeeds, reading two
chunks and then the end of the file. -/
def sampleEnv : Env (List (List Byte)) where
  openOk := fun _ => true
  parseUrl := fun s => some s
  dialOk := fun _ => true
  createOk := fun _ => true
  parser0 := []
  reads := [⟨[26, 69], ReadErr.nil⟩, ⟨[223], ReadErr.nil⟩, ⟨[], ReadErr.EOF⟩, ⟨[163], ReadErr.nil⟩]

/-- Reads whose second chunk the sample parser rejects. -/
def sampleFailingReads : List ReadResult :=
  [⟨[26, 69], ReadErr.nil⟩, ⟨[255, 1], ReadErr.nil⟩, ⟨[], ReadErr.EOF⟩]

/-- The writers constructed during a run, in call order. -/
def writersOf : List Event → List Writer
  | [] => []
  | Event.newNonSeekableWriter s :: t => Writer.NewNonSeekableWriter s :: writersOf t
  | Event.newWriter s :: t => Writer.NewWriter s :: writersOf t
  | _ :: t => writersOf t

/-- The identifiers a type table registers with the kind `TypeList`. -/
def listIds (table : List (ElementId × ElementType)) : List ElementId :=
  (table.filter (fun e => e.2 == ElementType.TypeList)).map Prod.fst

/-! ## The cluster remuxer, from the specification

The package `mse_webm_remuxer` that `remuxer.NewDemuxerClient` comes from is
not part of the sources at hand.  This section models it from section 4.4
of the specification (with the data model of section 3 and the writer
primitives of section 4.3). -/

/-- Modelled from the spec: a Block (section 3), "a single media
sample/frame reference (SimpleBlock), carrying a relative timecode offset
and opaque payload".  The bit layout of a SimpleBlock is left to the WebM
format by the specification, so a block is kept in decoded form. -/
structure Block where
  timecode : Int
  payload : List Byte
  deriving DecidableEq, Repr

/-- Modelled from the spec: the decoded payload of a leaf element: opaque
bytes, an unsigned-integer value (used for timecodes), or a block. -/
inductive Value
  | binary (bytes : List Byte)
  | uint (n : Int)
  | block (b : Block)
  deriving DecidableEq, Repr

/-- Modelled from the spec: what the remuxer (missing from the sources) is
told: the element-handler calls `on_enter`, `on_leaf`, `on_exit` of section
4.4 and the end of the stream. -/
inductive ElementEvent
  | enter (id : ElementId)
  | leaf (id : ElementId) (v : Value)
  | exit (id : ElementId)
  | endOfStream
  deriving DecidableEq, Repr

/-- Modelled from the spec: the writer operations `open_container`,
`close_container`, `write_leaf`, `finish` of section 4.3 (the writer is
missing from the sources). -/
inductive WriterOp
  | openContainer (id : ElementId)
  | closeContainer
  | writeLeaf (id : ElementId) (v : Value)
  | finish
  deriving DecidableEq, Repr

/-- Modelled from the spec: the Pending Cluster of section 3 (missing from
the sources): a base timecode and the blocks buffered since the last flush,
with their absolute timecodes. -/
structure PendingCluster where
  base : Int
  blocks : List Block
  deriving DecidableEq, Repr

/-- Modelled from the spec: the state of the Cluster Remuxer (Demuxer
Client) of section 4.4, missing from the sources: the configured minimum,
where it is in the input, the base timecode of the input cluster, the
Pending Cluster (`none` when empty), the writer operations issued so far,
and whether the run was aborted or finished. -/
structure DemuxerClient where
  minClusterDurationInMS : Int
  inSegment : Bool
  inCluster : Bool
  infoSeen : Bool
  tracksSeen : Bool
  clusterTimecode : Option Int
  pending : Option PendingCluster
  written : List WriterOp
  failed : Bool
  finished : Bool
  deriving DecidableEq, Repr

/-- Modelled from the spec: the constructor `remuxer.NewDemuxerClient(out,
minClusterDurationInMS)` (missing from the sources), with nothing written
yet. -/
def NewDemuxerClient (minClusterDurationInMS : Int) : DemuxerClient :=
  { minClusterDurationInMS := minClusterDurationInMS, inSegment := false, inCluster := false,
    infoSeen := false, tracksSeen := false, clusterTimecode := none, pending := none,
    written := [], failed := false, finished := false }

/-- Modelled from the spec: the fatal error of section 4.4 (the remuxer is
missing from the sources): "once broken, the run aborts". -/
def DemuxerClient.abort (c : DemuxerClient) : DemuxerClient := { c with failed := true }

/-- Modelled from the spec: one call on the writer (missing from the
sources), recorded in order. -/
def DemuxerClient.write (c : DemuxerClient) (ops : List WriterOp) : DemuxerClient :=
  { c with written := c.written ++ ops }

/-- Modelled from the spec: the SimpleBlock rule and the flush policy of
section 4.4 (the remuxer is missing from the sources), for a block of
absolute timecode `abs`.  An empty Pending Cluster adopts `abs` as its base
and opens an output Cluster with that Timecode written first; the block is
appended, written with its offset from the base; then, when `abs - base` is
at least the configured minimum, the output Cluster is closed and the
Pending Cluster reset to empty. -/
def DemuxerClient.appendBlock (c : DemuxerClient) (abs : Int) (payload : List Byte) :
    DemuxerClient :=
  let base := match c.pending with
    | none => abs
    | some p => p.base
  let buffered := match c.pending with
    | none => []
    | some p => p.blocks
  let opened := match c.pending with
    | none => c.write [WriterOp.openContainer ElementId.IdCluster,
        WriterOp.writeLeaf ElementId.IdTimecode (Value.uint abs)]
    | some _ => c
  let appended := opened.write
    [WriterOp.writeLeaf ElementId.IdSimpleBlock (Value.block ⟨abs - base, payload⟩)]
  if abs - base ≥ c.minClusterDurationInMS then
    { appended.write [WriterOp.closeContainer] with pending := none }
  else
    { appended with pending := some ⟨base, buffered ++ [⟨abs, payload⟩]⟩ }

/-- Modelled from the spec: `on_enter` of section 4.4 (the remuxer is
missing from the sources).  Segment opens the output container; Cluster
only starts a new input cluster, and outside a Segment it is a fatal
error. -/
def DemuxerClient.onEnter (c : DemuxerClient) : ElementId → DemuxerClient
  | ElementId.IdSegment =>
    { c.write [WriterOp.openContainer ElementId.IdSegment] with inSegment := true }
  | ElementId.IdCluster =>
    if c.inSegment then { c with inCluster := true, clusterTimecode := none } else c.abort
  | _ => c

/-- Modelled from the spec: `on_leaf` of section 4.4 (the remuxer is
missing from the sources).  Info and Tracks are written through once each;
Timecode records the base of the input cluster; a SimpleBlock becomes a
block at the cluster base plus its offset; a second Info or Tracks, a
SimpleBlock outside a Cluster or before the Timecode, and a malformed value
are fatal errors. -/
def DemuxerClient.onLeaf (c : DemuxerClient) : ElementId → Value → DemuxerClient
  | ElementId.IdInfo, v =>
    if c.infoSeen then c.abort
    else { c.write [WriterOp.writeLeaf ElementId.IdInfo v] with infoSeen := true }
  | ElementId.IdTracks, v =>
    if c.tracksSeen then c.abort
    else { c.write [WriterOp.writeLeaf ElementId.IdTracks v] with tracksSeen := true }
  | ElementId.IdTimecode, Value.uint t =>
    if c.inCluster then { c with clusterTimecode := some t } else c.abort
  | ElementId.IdTimecode, _ => c.abort
  | ElementId.IdSimpleBlock, Value.block b =>
    if c.inCluster then
      match c.clusterTimecode with
      | some t => c.appendBlock (t + b.timecode) b.payload
      | none => c.abort
    else c.abort
  | ElementId.IdSimpleBlock, _ => c.abort
  | _, _ => c

/-- Modelled from the spec: `on_exit` of section 4.4 (the remuxer is
missing from the sources).  Segment closes the output container; the end of
an input Cluster closes nothing. -/
def DemuxerClient.onExit (c : DemuxerClient) : ElementId → DemuxerClient
  | ElementId.IdSegment => { c.write [WriterOp.closeContainer] with inSegment := false }
  | ElementId.IdCluster => { c with inCluster := false }
  | _ => c

/-- Modelled from the spec: the end-of-stream rule of section 4.4 (the
remuxer is missing from the sources): a non-empty Pending Cluster has its
output Cluster closed, then the Segment container is closed, then `finish`
is called. -/
def DemuxerClient.onEndOfStream (c : DemuxerClient) : DemuxerClient :=
  let flushed := match c.pending with
    | none => c
    | some _ => { c.write [WriterOp.closeContainer] with pending := none }
  { flushed.write [WriterOp.closeContainer, WriterOp.finish] with finished := true }

/-- Modelled from the spec: the remuxer (missing from the sources) handling
one event; after a fatal error or `finish` nothing more is done. -/
def DemuxerClient.handle (c : DemuxerClient) (e : ElementEvent) : DemuxerClient :=
  if c.failed || c.finished then c
  else match e with
    | ElementEvent.enter id => c.onEnter id
    | ElementEvent.leaf id v => c.onLeaf id v
    | ElementEvent.exit id => c.onExit id
    | ElementEvent.endOfStream => c.onEndOfStream

/-- Modelled from the spec: the remuxer (missing from the sources) run on a
whole event stream with the configured minimum `m`. -/
def remux (m : Int) (events : List ElementEvent) : DemuxerClient :=
  events.foldl DemuxerClient.handle (NewDemuxerClient m)

/-! ### Reading the output -/

/-- An output Cluster as written: its Timecode, when one was written, and
its SimpleBlocks with their offsets. -/
structure OutputCluster where
  base : Option Int
  blocks : List Block
  deriving DecidableEq, Repr

/-- The clusters read so far from a sequence of writer operations: the
closed ones and the one still open. -/
structure OutputReader where
  closed : List OutputCluster
  current : Option OutputCluster
  deriving DecidableEq, Repr

/-- Read one writer operation: a Cluster container starts a cluster, a
Timecode or SimpleBlock leaf inside it belongs to it, and the next close
ends it. -/
def OutputReader.read (r : OutputReader) : WriterOp → OutputReader
  | WriterOp.openContainer ElementId.IdCluster =>
    { closed := r.closed ++ r.current.toList, current := some ⟨none, []⟩ }
  | WriterOp.writeLeaf ElementId.IdTimecode (Value.uint t) =>
    match r.current with
    | some c => { r with current := some { c with base := some t } }
    | none => r
  | WriterOp.writeLeaf ElementId.IdSimpleBlock (Value.block b) =>
    match r.current with
    | some c => { r with current := some { c with blocks := c.blocks ++ [b] } }
    | none => r
  | WriterOp.closeContainer =>
    match r.current with
    | some c => { closed := r.closed ++ [c], current := none }
    | none => r
  | _ => r

/-- The output Clusters of a sequence of writer operations, in order. -/
def outputClusters (ops : List WriterOp) : List OutputCluster :=
  let r := ops.foldl OutputReader.read ⟨[], none⟩
  r.closed ++ r.current.toList

/-- The span of an output Cluster: the timecode of its last block minus
its base timecode. -/
def OutputCluster.span (c : OutputCluster) : Option Int :=
  match c.base, c.blocks.getLast? with
  | some t, some b => some ((t + b.timecode) - t)
  | _, _ => none

/-- The (absolute timecode, payload) pairs of the SimpleBlocks of an output
Cluster. -/
def OutputCluster.absoluteBlocks (c : OutputCluster) : List (Int × List Byte) :=
  match c.base with
  | some t => c.blocks.map (fun b => (t + b.timecode, b.payload))
  | none => []

/-- The (absolute timecode, payload) pairs of all SimpleBlocks written. -/
def outputBlocks (ops : List WriterOp) : List (Int × List Byte) :=
  ((outputClusters ops).map OutputCluster.absoluteBlocks).flatten

/-! ### Valid input streams -/

/-- Where a well-formed event stream is: before the Segment, in the Segment
(with Info and Tracks seen or not), in a Cluster (with its Timecode when
seen), after the Segment, or ended. -/
inductive Phase
  | start
  | segment (info tracks : Bool)
  | cluster (info tracks : Bool) (timecode : Option Int)
  | closed
  | ended
  deriving DecidableEq, Repr

/-- One event of a well-formed stream; `none` when the event is not allowed
where the stream is. -/
def Phase.step : Phase → ElementEvent → Option Phase
  | Phase.start, ElementEvent.leaf ElementId.IdHeader _ => some Phase.start
  | Phase.start, ElementEvent.enter ElementId.IdSegment => some (Phase.segment false false)
  | Phase.segment false tr, ElementEvent.leaf ElementId.IdInfo _ => some (Phase.segment true tr)
  | Phase.segment i false, ElementEvent.leaf ElementId.IdTracks _ => some (Phase.segment i true)
  | Phase.segment i tr, ElementEvent.leaf (ElementId.unregistered _) _ =>
    some (Phase.segment i tr)
  | Phase.segment i tr, ElementEvent.enter ElementId.IdCluster => some (Phase.cluster i tr none)
  | Phase.segment _ _, ElementEvent.exit ElementId.IdSegment => some Phase.closed
  | Phase.segment _ _, ElementEvent.endOfStream => some Phase.ended
  | Phase.cluster i tr _, ElementEvent.leaf ElementId.IdTimecode (Value.uint t) =>
    some (Phase.cluster i tr (some t))
  | Phase.cluster i tr (some t), ElementEvent.leaf ElementId.IdSimpleBlock (Value.block _) =>
    some (Phase.cluster i tr (some t))
  | Phase.cluster i tr t, ElementEvent.leaf (ElementId.unregistered _) _ =>
    some (Phase.cluster i tr t)
  | Phase.cluster i tr _, ElementEvent.exit ElementId.IdCluster => some (Phase.segment i tr)
  | Phase.cluster _ _ _, ElementEvent.endOfStream => some Phase.ended
  | Phase.closed, ElementEvent.endOfStream => some Phase.ended
  | _, _ => none

/-- The phase reached from `p` by a list of events. -/
def Phase.run : Phase → List ElementEvent → Option Phase
  | p, [] => some p
  | p, e :: es => match p.step e with
    | some q => q.run es
    | none => none

/-- A valid input stream: a Segment holding at most one Info and Tracks and
any number of Clusters, each with its Timecode before its SimpleBlocks,
followed to its end. -/
def validStream (events : List ElementEvent) : Prop :=
  Phase.start.run events = some Phase.ended

instance (events : List ElementEvent) : Decidable (validStream events) := by
  unfold validStream; infer_instance

/-- The input blocks read so far and the Timecode of the current input
Cluster. -/
structure InputReader where
  timecode : Option Int
  blocks : List (Int × List Byte)
  deriving DecidableEq, Repr

/-- Read one input event: a Cluster forgets the previous Timecode, a
Timecode sets it, and a SimpleBlock stands at that Timecode plus its
offset. -/
def InputReader.read (r : InputReader) : ElementEvent → InputReader
  | ElementEvent.enter ElementId.IdCluster => { r with timecode := none }
  | ElementEvent.leaf ElementId.IdTimecode (Value.uint t) => { r with timecode := some t }
  | ElementEvent.leaf ElementId.IdSimpleBlock (Value.block b) =>
    match r.timecode with
    | some t => { r with blocks := r.blocks ++ [(t + b.timecode, b.payload)] }
    | none => r
  | _ => r

/-- The (absolute timecode, payload) pairs of the SimpleBlocks of an input
stream. -/
def inputBlocks (events : List ElementEvent) : List (Int × List Byte) :=
  (events.foldl InputReader.read ⟨none, []⟩).blocks

/-- Three blocks at 0, 10 and 20 ms inside one input Cluster. -/
def sampleStream : List ElementEvent :=
  [ ElementEvent.enter ElementId.IdSegment,
    ElementEvent.leaf ElementId.IdInfo (Value.binary [1]),
    ElementEvent.leaf ElementId.IdTracks (Value.binary [2]),
    ElementEvent.enter ElementId.IdCluster,
    ElementEvent.leaf ElementId.IdTimecode (Value.uint 0),
    ElementEvent.leaf ElementId.IdSimpleBlock (Value.block ⟨0, [10]⟩),
    ElementEvent.leaf ElementId.IdSimpleBlock (Value.block ⟨10, [11]⟩),
    ElementEvent.leaf ElementId.IdSimpleBlock (Value.block ⟨20, [12]⟩),
    ElementEvent.exit ElementId.IdCluster,
    ElementEvent.endOfStream ]

/-! ### Invariants of the remuxer on a valid stream -/

/-- The output read back from what a remuxer has written. -/
def DemuxerClient.reader (c : DemuxerClient) : OutputReader :=
  c.written.foldl OutputReader.read ⟨[], none⟩

/-- An output Cluster whose span is at least `m`. -/
def SpanAtLeast (m : Int) (oc : OutputCluster) : Prop :=
  ∃ sp, oc.span = some sp ∧ m ≤ sp

/-- The (absolute timecode, payload) pairs of a list of output Clusters. -/
def absoluteBlocksOf (l : List OutputCluster) : List (Int × List Byte) :=
  (l.map OutputCluster.absoluteBlocks).flatten

/-- While the Segment is open: every closed output Cluster reaches the
minimum, the open output Cluster is the Pending Cluster, and the blocks
written are the blocks read. -/
def OpenInv (m : Int) (c : DemuxerClient) (i : InputReader) : Prop :=
  (∀ oc ∈ c.reader.closed, SpanAtLeast m oc) ∧
  (c.pending = none → c.reader.current = none) ∧
  (∀ pd, c.pending = some pd → ∃ blocks, c.reader.current = some ⟨some pd.base, blocks⟩) ∧
  absoluteBlocksOf (c.reader.closed ++ c.reader.current.toList) = i.blocks

/-- Once the Segment is over: every output Cluster but the last reaches the
minimum, none is open, and the blocks written are the blocks read. -/
def SettledInv (m : Int) (c : DemuxerClient) (i : InputReader) : Prop :=
  (∀ oc ∈ c.reader.closed.dropLast, SpanAtLeast m oc) ∧
  c.reader.current = none ∧
  absoluteBlocksOf c.reader.closed = i.blocks

/-- The relation kept between the phase of a valid stream, the remuxer and
the input read so far. -/
def RemuxInv (m : Int) : Phase → DemuxerClient → InputReader → Prop
  | Phase.start, c, i => c = NewDemuxerClient m ∧ i = ⟨none, []⟩
  | Phase.segment info tracks, c, i =>
    c.failed = false ∧ c.finished = false ∧ c.minClusterDurationInMS = m ∧
      c.inSegment = true ∧ c.infoSeen = info ∧ c.tracksSeen = tracks ∧ OpenInv m c i
  | Phase.cluster info tracks tc, c, i =>
    c.failed = false ∧ c.finished = false ∧ c.minClusterDurationInMS = m ∧
      c.inSegment = true ∧ c.inCluster = true ∧ c.infoSeen = info ∧ c.tracksSeen = tracks ∧
      c.clusterTimecode = tc ∧ i.timecode = tc ∧ OpenInv m c i
  | Phase.closed, c, i => c.failed = false ∧ c.finished = false ∧ SettledInv m c i
  | Phase.ended, c, i => c.failed = false ∧ c.finished = true ∧ SettledInv m c i

/-! ## The incremental EBML parser, from the specification

The package `ebml` that `ebml.NewParser`, `parser.Append` and
`parser.EndOfData` come from is not part of the sources at hand.  This
section models the parser from section 4.2 of the specification, with the
data model of section 3 and the registry of section 4.1. -/

/-- Modelled from the spec: the outcome of decoding a variable-length field
of the parser (missing from the sources) at the front of the buffered
bytes: the field is incomplete, structurally invalid, or decoded to a value
using `length` bytes. -/
inductive Decoded (α : Type)
  | needMore
  | invalid
  | ok (value : α) (length : Nat)
  deriving DecidableEq, Repr

/-- Modelled from the spec: the byte-level decoders the parser (missing from
the sources) uses and the specification names without defining: the
variable-length identifier, the variable-length size with its reserved
"unknown" pattern (`none`), and the value of an unsigned-integer payload. -/
structure Framing where
  readId : List Byte → Decoded ElementId
  readSize : List Byte → Decoded (Option Nat)
  decodeUint : List Byte → Int

/-- A field decoder reads a self-delimiting field: nothing is decoded from
no bytes, a decoded field has at least one byte and lies within the buffer,
and a field that is decoded or invalid stays so when more bytes follow. -/
def SelfDelimiting {α : Type} (read : List Byte → Decoded α) : Prop :=
  read [] = Decoded.needMore ∧
  (∀ buf v n, read buf = Decoded.ok v n → 1 ≤ n ∧ n ≤ buf.length) ∧
  (∀ buf v n more, read buf = Decoded.ok v n → read (buf ++ more) = Decoded.ok v n) ∧
  (∀ buf more, read buf = Decoded.invalid → read (buf ++ more) = Decoded.invalid)

/-- Both header fields are self-delimiting. -/
def Framing.Stable (F : Framing) : Prop :=
  SelfDelimiting F.readId ∧ SelfDelimiting F.readSize

/-- Modelled from the spec: the configuration of the parser (missing from
the sources), as passed to `ebml.NewParser`: the decoders, the element type
registry, and for each container identifier the identifiers valid at its
level or a shallower one, which close it when its size is unknown. -/
structure ParserConfig where
  framing : Framing
  typeInfo : List (ElementId × ElementType)
  unknownSizeInfo : ElementId → List ElementId

/-- Modelled from the spec: the registry lookup of section 4.1 (missing
from the sources): "Identifiers not present are treated as opaque leaves
(Binary) by policy". -/
def ParserConfig.kindOf (cfg : ParserConfig) (id : ElementId) : ElementType :=
  ((cfg.typeInfo.find? (fun e => e.1 == id)).map Prod.snd).getD ElementType.TypeBinary

/-- Modelled from the spec: the element-handler contract of the parser
(missing from the sources), `on_enter`, `on_leaf`, `on_exit`; each call
returns the new handler state and whether the element is accepted. -/
structure Handler (η : Type) where
  onEnter : η → ElementId → η × Bool
  onLeaf : η → ElementId → Value → η × Bool
  onExit : η → ElementId → η × Bool

/-- Modelled from the spec: an Element of the Parse Stack (section 3; the
parser is missing from the sources): identifier, declared size (`none` for
Unknown) and the bytes consumed so far. -/
structure OpenElement where
  id : ElementId
  declaredSize : Option Nat
  bytesConsumed : Nat
  deriving DecidableEq, Repr

/-- Modelled from the spec: the state of the incremental parser (missing
from the sources): the bytes retained for the next call, the Parse Stack
(innermost element first), the handler, and whether parsing has failed. -/
structure EbmlParser (η : Type) where
  buffer : List Byte
  stack : List OpenElement
  handler : η
  failed : Bool

/-- Modelled from the spec: the parser returned by `ebml.NewParser`
(missing from the sources): nothing buffered, nothing open. -/
def NewParser {η : Type} (h : η) : EbmlParser η :=
  { buffer := [], stack := [], handler := h, failed := false }

/-- Modelled from the spec: the closing rule for unknown-size containers
(section 4.2; the parser is missing from the sources): when the identifier
`id` is decoded, the innermost open containers of unknown size that `id`
closes are exited, innermost first.  The result is the remaining stack, the
handler, and false when the handler rejected an exit. -/
def closeUnknown {η : Type} (cfg : ParserConfig) (H : Handler η) (id : ElementId) :
    List OpenElement → η → List OpenElement × η × Bool
  | [], h => ([], h, true)
  | top :: rest, h =>
    if top.declaredSize = none ∧ id ∈ cfg.unknownSizeInfo top.id then
      if (H.onExit h top.id).2 then closeUnknown cfg H id rest (H.onExit h top.id).1
      else (rest, (H.onExit h top.id).1, false)
    else (top :: rest, h, true)

/-- Modelled from the spec: the exit of every innermost element whose
consumed bytes have reached its declared size (section 3; the parser is
missing from the sources). -/
def closeCompleted {η : Type} (H : Handler η) :
    List OpenElement → η → List OpenElement × η × Bool
  | [], h => ([], h, true)
  | top :: rest, h =>
    if top.declaredSize = some top.bytesConsumed then
      if (H.onExit h top.id).2 then closeCompleted H rest (H.onExit h top.id).1
      else (rest, (H.onExit h top.id).1, false)
    else (top :: rest, h, true)

/-- Modelled from the spec: whether `n` more bytes stay within the
remaining budget of the still-open parent (section 4.2; the parser is
missing from the sources). -/
def fitsParent (stack : List OpenElement) (n : Nat) : Bool :=
  match stack with
  | [] => true
  | top :: _ =>
    match top.declaredSize with
    | none => true
    | some size => decide (top.bytesConsumed + n ≤ size)

/-- Modelled from the spec: `n` bytes consumed inside every open element
(the progress counter of section 3; the parser is missing from the
sources). -/
def consume (n : Nat) (stack : List OpenElement) : List OpenElement :=
  stack.map (fun e => { e with bytesConsumed := e.bytesConsumed + n })

/-- Modelled from the spec: the value handed to the handler for a leaf of
the given kind (the parser is missing from the sources). -/
def ParserConfig.decodeLeaf (cfg : ParserConfig) (kind : ElementType) (payload : List Byte) :
    Value :=
  match kind with
  | ElementType.TypeUint => Value.uint (cfg.framing.decodeUint payload)
  | _ => Value.binary payload

/-- The result of one decode step: more bytes are needed, parsing failed
(with the handler as it then is), or one element header or leaf was
consumed. -/
inductive StepResult (η : Type)
  | needMore
  | failed (h : η)
  | advanced (s : EbmlParser η)

/-- Modelled from the spec: the part of a decode step of section 4.2 that
follows the header (the parser is missing from the sources), for an element
`id` of declared size `size` whose header takes `header` bytes.  The closing
rule is applied; an unknown size is accepted for a List only; the element
must fit the remaining budget of its parent; a List is entered; a Binary or
Unsigned-Integer leaf waits for its full payload and is handed to the
handler; elements whose size is used up are exited. -/
def EbmlParser.element {η : Type} (cfg : ParserConfig) (H : Handler η) (s : EbmlParser η)
    (id : ElementId) (size : Option Nat) (header : Nat) : StepResult η :=
  let closed := closeUnknown cfg H id s.stack s.handler
  if !closed.2.2 then StepResult.failed closed.2.1
  else
    match size, cfg.kindOf id with
    | none, ElementType.TypeList =>
      if !fitsParent closed.1 header then StepResult.failed closed.2.1
      else if !(H.onEnter closed.2.1 id).2 then StepResult.failed (H.onEnter closed.2.1 id).1
      else StepResult.advanced
        { buffer := s.buffer.drop header,
          stack := ⟨id, none, 0⟩ :: consume header closed.1,
          handler := (H.onEnter closed.2.1 id).1, failed := false }
    | none, _ => StepResult.failed closed.2.1
    | some size, ElementType.TypeList =>
      if !fitsParent closed.1 (header + size) then StepResult.failed closed.2.1
      else if !(H.onEnter closed.2.1 id).2 then StepResult.failed (H.onEnter closed.2.1 id).1
      else
        let done := closeCompleted H (⟨id, some size, 0⟩ :: consume header closed.1)
          (H.onEnter closed.2.1 id).1
        if !done.2.2 then StepResult.failed done.2.1
        else StepResult.advanced
          { buffer := s.buffer.drop header, stack := done.1, handler := done.2.1,
            failed := false }
    | some size, kind =>
      if !fitsParent closed.1 (header + size) then StepResult.failed closed.2.1
      else if s.buffer.length < header + size then StepResult.needMore
      else
        let leaf := H.onLeaf closed.2.1 id
          (cfg.decodeLeaf kind ((s.buffer.drop header).take size))
        if !leaf.2 then StepResult.failed leaf.1
        else
          let done := closeCompleted H (consume (header + size) closed.1) leaf.1
          if !done.2.2 then StepResult.failed done.2.1
          else StepResult.advanced
            { buffer := s.buffer.drop (header + size), stack := done.1,
              handler := done.2.1, failed := false }

/-- Modelled from the spec: one decode step of section 4.2 (the parser is
missing from the sources): read a variable-length identifier, then a
variable-length size, then handle the element; an incomplete field waits
for more bytes and an invalid one is a failure. -/
def EbmlParser.step {η : Type} (cfg : ParserConfig) (H : Handler η) (s : EbmlParser η) :
    StepResult η :=
  match cfg.framing.readId s.buffer with
  | Decoded.needMore => StepResult.needMore
  | Decoded.invalid => StepResult.failed s.handler
  | Decoded.ok id n1 =>
    match cfg.framing.readSize (s.buffer.drop n1) with
    | Decoded.needMore => StepResult.needMore
    | Decoded.invalid => StepResult.failed s.handler
    | Decoded.ok size n2 => s.element cfg H id size (n1 + n2)

/-- Modelled from the spec: the parser (missing from the sources) decoding
"as many complete header triples as the currently buffered bytes allow", at
most `fuel` of them; it stops at an incomplete header or payload, keeping
the bytes, and at a failure. -/
def EbmlParser.drain {η : Type} (cfg : ParserConfig) (H : Handler η) :
    Nat → EbmlParser η → EbmlParser η
  | 0, s => s
  | fuel + 1, s =>
    match s.step cfg H with
    | StepResult.needMore => s
    | StepResult.failed h => { s with handler := h, failed := true }
    | StepResult.advanced t => EbmlParser.drain cfg H fuel t

/-- Modelled from the spec: `append(chunk) -> success` of section 4.2 (the
parser is missing from the sources).  A parser that has failed stays as it
is; otherwise the chunk joins the retained bytes and decoding goes on, with
one unit of fuel more than there are bytes. -/
def EbmlParser.Append {η : Type} (cfg : ParserConfig) (H : Handler η) (s : EbmlParser η)
    (chunk : List Byte) : EbmlParser η × Bool :=
  if s.failed then (s, false)
  else
    let t := EbmlParser.drain cfg H (s.buffer.length + chunk.length + 1)
      { s with buffer := s.buffer ++ chunk }
    (t, !t.failed)

/-- Modelled from the spec: the exit of every open element, innermost
first, for `end_of_data` (the parser is missing from the sources). -/
def closeAll {η : Type} (H : Handler η) : List OpenElement → η → List OpenElement × η × Bool
  | [], h => ([], h, true)
  | top :: rest, h =>
    if (H.onExit h top.id).2 then closeAll H rest (H.onExit h top.id).1
    else (rest, (H.onExit h top.id).1, false)

/-- Modelled from the spec: `end_of_data()` of section 4.2 (the parser is
missing from the sources).  Retained bytes of a partial header or payload
and an open element of known size are a truncated stream, which is fatal;
otherwise the open containers, all of unknown size, are closed innermost
first. -/
def EbmlParser.EndOfData {η : Type} (H : Handler η) (s : EbmlParser η) : EbmlParser η :=
  if s.failed then s
  else if s.buffer ≠ [] ∨ s.stack.any (fun e => e.declaredSize.isSome) then
    { s with failed := true }
  else
    let closed := closeAll H s.stack s.handler
    { buffer := s.buffer, stack := closed.1, handler := closed.2.1, failed := !closed.2.2 }

/-- Feeding chunks one `Append` call at a time. -/
def EbmlParser.feed {η : Type} (cfg : ParserConfig) (H : Handler η) (s : EbmlParser η)
    (chunks : List (List Byte)) : EbmlParser η :=
  chunks.foldl (fun t c => (EbmlParser.Append cfg H t c).1) s

/-- The parser as driven by the read loop of `main`. -/
def EbmlParser.asParser {η : Type} (cfg : ParserConfig) (H : Handler η) : Parser (EbmlParser η) where
  Append := EbmlParser.Append cfg H
  EndOfData := EbmlParser.EndOfData H

/-- Two parser states with the same handler, stack and failure status,
and, unless failed, the same retained bytes: the same decoded events were
delivered and the same will be. -/
def EbmlParser.Agree {η : Type} (s t : EbmlParser η) : Prop :=
  s.handler = t.handler ∧ s.stack = t.stack ∧ s.failed = t.failed ∧
    (s.failed = false → s.buffer = t.buffer)

/-- A state with more bytes at the end of its buffer. -/
def EbmlParser.extend {η : Type} (s : EbmlParser η) (more : List Byte) : EbmlParser η :=
  { s with buffer := s.buffer ++ more }

/-! ### A sample parser configuration -/

/-- The length of an EBML variable-length integer, from its first byte: one
more than the number of leading zero bits; 0 when the byte is zero. -/
def vintLength (b : Byte) : Nat :=
  if 128 ≤ b.val then 1 else if 64 ≤ b.val then 2 else if 32 ≤ b.val then 3
  else if 16 ≤ b.val then 4 else if 8 ≤ b.val then 5 else if 4 ≤ b.val then 6
  else if 2 ≤ b.val then 7 else if 1 ≤ b.val then 8 else 0

/-- The bytes of an EBML variable-length integer of at most `maxLength`
bytes at the front of a buffer. -/
def readVint (maxLength : Nat) (buf : List Byte) : Decoded (List Byte) :=
  match buf with
  | [] => Decoded.needMore
  | b :: _ =>
    if vintLength b = 0 ∨ maxLength < vintLength b then Decoded.invalid
    else if buf.length < vintLength b then Decoded.needMore
    else Decoded.ok (buf.take (vintLength b)) (vintLength b)

/-- Apply a function to a decoded value. -/
def Decoded.map {α β : Type} (f : α → β) : Decoded α → Decoded β
  | Decoded.needMore => Decoded.needMore
  | Decoded.invalid => Decoded.invalid
  | Decoded.ok v n => Decoded.ok (f v) n

/-- The big-endian value of a byte string. -/
def bigEndian (bytes : List Byte) : Nat :=
  bytes.foldl (fun acc b => acc * 256 + b.val) 0

/-- The element named by the bytes of an identifier, with the identifier
values of the EBML and WebM formats. -/
def idOfBytes (bytes : List Byte) : ElementId :=
  if bytes = [26, 69, 223, 163] then ElementId.IdHeader
  else if bytes = [24, 83, 128, 103] then ElementId.IdSegment
  else if bytes = [21, 73, 169, 102] then ElementId.IdInfo
  else if bytes = [22, 84, 174, 107] then ElementId.IdTracks
  else if bytes = [31, 67, 182, 117] then ElementId.IdCluster
  else if bytes = [231] then ElementId.IdTimecode
  else if bytes = [163] then ElementId.IdSimpleBlock
  else ElementId.unregistered (bigEndian bytes)

/-- The size encoded by the bytes of a size field: the value without the
length marker, or `none` when all value bits are set. -/
def sizeOfBytes (bytes : List Byte) : Option Nat :=
  let value := bigEndian bytes % 2 ^ (7 * bytes.length)
  if value + 1 = 2 ^ (7 * bytes.length) then none else some value

/-- The EBML encoding of identifiers (at most 4 bytes), sizes (at most 8
bytes) and unsigned integers (big-endian). -/
def ebmlFraming : Framing where
  readId := fun buf => (readVint 4 buf).map idOfBytes
  readSize := fun buf => (readVint 8 buf).map sizeOfBytes
  decodeUint := fun payload => (bigEndian payload : Int)

/-- The configuration `main` builds: the EBML framing, the table
`typeInfo`, and Segment and Cluster closed by a Segment, Cluster closed also
by a Cluster. -/
def sampleConfig : ParserConfig where
  framing := ebmlFraming
  typeInfo := typeInfo
  unknownSizeInfo := fun id =>
    match id with
    | ElementId.IdSegment => [ElementId.IdSegment]
    | ElementId.IdCluster => [ElementId.IdSegment, ElementId.IdCluster]
    | _ => []

/-- A handler that accepts every element and records the calls. -/
def recorder : Handler (List ElementEvent) where
  onEnter := fun h id => (h ++ [ElementEvent.enter id], true)
  onLeaf := fun h id v => (h ++ [ElementEvent.leaf id v], true)
  onExit := fun h id => (h ++ [ElementEvent.exit id], true)

/-- A stream of 35 bytes: a Segment of unknown size holding an Info of two
bytes and two Clusters of unknown size, each with a Timecode and a
SimpleBlock. -/
def sampleBytes : List Byte :=
  [24, 83, 128, 103, 255,
   21, 73, 169, 102, 130, 7, 8,
   31, 67, 182, 117, 255, 231, 129, 0, 163, 130, 129, 5,
   31, 67, 182, 117, 255, 231, 129, 20, 163, 129, 9]

/-! ## The read loop: lemmas -/

theorem okIterations_append (a b : List ReadResult) :
    okIterations (a ++ b) = okIterations a ++ okIterations b := by
  induction a with
  | nil => rfl
  | cons r a ih => simp [okIterations, ih]

theorem readLoop_done {σ : Type} (P : Parser σ) (rs : List ReadResult) (s : LoopState σ)
    (h : s.done = true) : readLoop P rs s = s := by
  cases rs with
  | nil => rfl
  | cons r rs => simp [readLoop, h]

theorem readLoop_append {σ : Type} (P : Parser σ) (a b : List ReadResult) (s : LoopState σ) :
    readLoop P (a ++ b) s = readLoop P b (readLoop P a s) := by
  induction a generalizing s with
  | nil => rfl
  | cons r a ih =>
    by_cases h : s.done = true
    · simp [readLoop, h, readLoop_done]
    · simp [readLoop, h, ih]

theorem take_stored (bytes buf : List Byte) :
    (bytes ++ buf.drop bytes.length).take bytes.length = bytes := by
  simp

theorem iteration_shape {σ : Type} (P : Parser σ) (s : LoopState σ) (r : ReadResult)
    (rs : List ReadResult) (h : ∀ x ∈ rs, GoodRead x) (ht : s.trace = okIterations rs) :
    LoopShape (iteration P s r).trace (iteration P s r).done (iteration P s r).outcome := by
  unfold iteration
  by_cases he : isEndOfStream r.err = true
  · simp only [he, if_true, ht, List.append_assoc, List.singleton_append]
    exact LoopShape.endOfStream rs h r he
  · have he' : isEndOfStream r.err = false := by simpa using he
    by_cases hl : 1024 < r.bytesRead
    · simp only [he', hl, if_true, ht]
      exact LoopShape.sliceOutOfRange rs h r he' hl
    · have hg : GoodRead r := ⟨he', by omega⟩
      have hc : (r.bytes ++ s.buf.drop r.bytesRead).take r.bytesRead = r.bytes :=
        take_stored r.bytes s.buf
      by_cases ha : (P.Append s.parser r.bytes).2 = true
      · simp only [he', hl, if_false, hc, ha, ht, Bool.not_true, Bool.false_eq_true]
        have : okIterations rs ++ [Event.read r] ++ [Event.append r.bytes true]
            = okIterations (rs ++ [r]) := by
          simp [okIterations_append, okIterations]
        rw [this]
        refine LoopShape.reading (rs ++ [r]) ?_
        intro x hx
        rcases List.mem_append.1 hx with hx | hx
        · exact h x hx
        · simp at hx; subst hx; exact hg
      · have ha' : (P.Append s.parser r.bytes).2 = false := by simpa using ha
        simp only [he', hl, if_false, hc, ha', ht, Bool.not_false, if_true,
          List.append_assoc, List.singleton_append, Bool.false_eq_true]
        exact LoopShape.parserError rs h r hg

theorem readLoop_shape_aux {σ : Type} (P : Parser σ) (rs : List ReadResult)
    (s : LoopState σ) (hs : LoopShape s.trace s.done s.outcome) :
    LoopShape (readLoop P rs s).trace (readLoop P rs s).done (readLoop P rs s).outcome := by
  induction rs generalizing s with
  | nil => exact hs
  | cons r rs ih =>
    by_cases hd : s.done = true
    · simpa [readLoop, hd] using hs
    · have hd' : s.done = false := by simpa using hd
      simp only [readLoop, hd', Bool.false_eq_true, if_false]
      apply ih
      generalize hT : s.trace = T at hs
      generalize hD : s.done = D at hs
      generalize hO : s.outcome = O at hs
      cases hs with
      | reading rs0 h => exact iteration_shape P s r rs0 h hT
      | endOfStream rs0 h r0 hr => simp [hd'] at hD
      | parserError rs0 h r0 hr => simp [hd'] at hD
      | sliceOutOfRange rs0 h r0 hr hl => simp [hd'] at hD

theorem readLoop_shape {σ : Type} (P : Parser σ) (rs : List ReadResult) (p : σ) :
    LoopShape (readLoop P rs (loopInit p)).trace (readLoop P rs (loopInit p)).done
      (readLoop P rs (loopInit p)).outcome :=
  readLoop_shape_aux P rs (loopInit p) (LoopShape.reading [] (by simp))

theorem endOfData_not_mem_okIterations (rs : List ReadResult) :
    Event.endOfData ∉ okIterations rs := by
  induction rs with
  | nil => simp [okIterations]
  | cons r rs ih => simp [okIterations, ih]

theorem read_mem_okIterations (rs : List ReadResult) (r : ReadResult)
    (h : Event.read r ∈ okIterations rs) : r ∈ rs := by
  induction rs with
  | nil => simp [okIterations] at h
  | cons x rs ih =>
    simp only [okIterations, List.mem_cons] at h
    rcases h with h | h | h
    · injection h with h; simp [h]
    · cases h
    · exact List.mem_cons_of_mem _ (ih h)

theorem append_mem_okIterations (rs : List ReadResult) (c : List Byte) (ok : Bool)
    (h : Event.append c ok ∈ okIterations rs) : ok = true := by
  induction rs with
  | nil => simp [okIterations] at h
  | cons x rs ih =>
    simp only [okIterations, List.mem_cons] at h
    rcases h with h | h | h
    · cases h
    · injection h
    · exact ih h

theorem chunksOf_append (a b : List Event) : chunksOf (a ++ b) = chunksOf a ++ chunksOf b := by
  induction a with
  | nil => rfl
  | cons e a ih => cases e <;> simp [chunksOf, ih]

theorem readsOf_append (a b : List Event) : readsOf (a ++ b) = readsOf a ++ readsOf b := by
  induction a with
  | nil => rfl
  | cons e a ih => cases e <;> simp [readsOf, ih]

theorem chunksOf_okIterations (rs : List ReadResult) :
    chunksOf (okIterations rs) = rs.map ReadResult.bytes := by
  induction rs with
  | nil => rfl
  | cons r rs ih => simp [okIterations, chunksOf, ih]

theorem readsOf_okIterations (rs : List ReadResult) : readsOf (okIterations rs) = rs := by
  induction rs with
  | nil => rfl
  | cons r rs ih => simp [okIterations, readsOf, ih]

/-- A list with one marked element has one way of being cut at a marked
element. -/
theorem cut_unique {α : Type} (p : α → Prop) (A B pre post : List α) (x y : α)
    (hA : ∀ a ∈ A, ¬ p a) (hB : ∀ b ∈ B, ¬ p b) (hx : p x)
    (h : pre ++ x :: post = A ++ y :: B) : pre = A ∧ x = y ∧ post = B := by
  induction A generalizing pre with
  | nil =>
    cases pre with
    | nil => simp at h; simp [h]
    | cons z pre =>
      simp at h
      exact absurd hx (hB x (by rw [← h.2]; simp))
  | cons a A ih =>
    cases pre with
    | nil =>
      simp at h
      exact absurd (h.1 ▸ hx) (hA a (by simp))
    | cons z pre =>
      simp at h
      obtain ⟨h1, h2, h3⟩ := ih pre (fun a ha => hA a (List.mem_cons_of_mem _ ha)) h.2
      exact ⟨by rw [h.1, h1], h2, h3⟩

theorem iteration_reads {σ : Type} (P : Parser σ) (s : LoopState σ) (r : ReadResult) :
    readsOf (iteration P s r).trace = readsOf s.trace ++ [r] := by
  unfold iteration
  simp only
  split_ifs <;> simp [readsOf_append, readsOf]

theorem readLoop_reads {σ : Type} (P : Parser σ) (rs : List ReadResult) (s : LoopState σ) :
    ∃ k, readsOf (readLoop P rs s).trace = readsOf s.trace ++ rs.take k := by
  induction rs generalizing s with
  | nil => exact ⟨0, by simp [readLoop]⟩
  | cons r rs ih =>
    by_cases hd : s.done = true
    · exact ⟨0, by simp [readLoop, hd]⟩
    · obtain ⟨k, hk⟩ := ih (iteration P s r)
      refine ⟨k + 1, ?_⟩
      simp [readLoop, hd, hk, iteration_reads]

theorem readLoop_reads_prefix {σ : Type} (P : Parser σ) (rs : List ReadResult) (p : σ) :
    readsOf (readLoop P rs (loopInit p)).trace <+: rs := by
  obtain ⟨k, hk⟩ := readLoop_reads P rs (loopInit p)
  rw [hk]
  simpa [loopInit, readsOf] using List.take_prefix k rs

theorem iteration_swapEnd {σ : Type} (P : Parser σ) (s : LoopState σ) (r : ReadResult) :
    iteration P (swapEndState s) (swapEndRead r) = swapEndState (iteration P s r) := by
  have he : isEndOfStream (swapEndErr r.err) = isEndOfStream r.err := by
    cases h : r.err <;> rfl
  unfold iteration
  simp only [swapEndState, swapEndRead, ReadResult.bytesRead, he]
  split_ifs <;> simp [swapEndEvent, swapEndRead]

theorem readLoop_swapEnd {σ : Type} (P : Parser σ) (rs : List ReadResult) (s : LoopState σ) :
    readLoop P (rs.map swapEndRead) (swapEndState s) = swapEndState (readLoop P rs s) := by
  induction rs generalizing s with
  | nil => rfl
  | cons r rs ih =>
    by_cases hd : s.done = true
    · have : (swapEndState s).done = true := hd
      simp [readLoop, hd, this]
    · have : ¬ (swapEndState s).done = true := hd
      simp [readLoop, hd, this, iteration_swapEnd, ih]

theorem shape_end_read {T : List Event} {d : Bool} {o : Outcome} (hs : LoopShape T d o)
    (pre post : List Event) (r : ReadResult) (hT : T = pre ++ Event.read r :: post)
    (hr : isEndOfStream r.err = true) :
    post = [Event.endOfData] ∧ Event.endOfData ∉ pre ∧ d = true ∧ o = Outcome.returned := by
  have hmem : Event.read r ∈ T := by rw [hT]; simp
  cases hs with
  | reading rs h =>
    have := (h r (read_mem_okIterations rs r hmem)).1
    simp [hr] at this
  | endOfStream rs h r0 hr0 =>
    have hA : ∀ a ∈ okIterations rs, ¬ (∃ x, a = Event.read x ∧ isEndOfStream x.err = true) := by
      rintro a ha ⟨x, rfl, hx⟩
      have := (h x (read_mem_okIterations rs x ha)).1
      simp [hx] at this
    have hB : ∀ b ∈ [Event.endOfData], ¬ (∃ x, b = Event.read x ∧ isEndOfStream x.err = true) := by
      rintro b hb ⟨x, rfl, _⟩
      simp at hb
    have hcut := cut_unique _ (okIterations rs) [Event.endOfData] pre post (Event.read r)
      (Event.read r0) hA hB ⟨r, rfl, hr⟩ (by rw [← hT])
    refine ⟨hcut.2.2, ?_, rfl, rfl⟩
    rw [hcut.1]
    exact endOfData_not_mem_okIterations rs
  | parserError rs h r0 hr0 =>
    simp only [List.mem_append, List.mem_cons, List.mem_singleton] at hmem
    rcases hmem with hm | hm | hm | hm
    · have := (h r (read_mem_okIterations rs r hm)).1
      simp [hr] at this
    · injection hm with hm
      have := hr0.1
      rw [← hm, hr] at this
      cases this
    · cases hm
    · simp at hm
  | sliceOutOfRange rs h r0 hr0 hl =>
    simp only [List.mem_append, List.mem_singleton] at hmem
    rcases hmem with hm | hm
    · have := (h r (read_mem_okIterations rs r hm)).1
      simp [hr] at this
    · injection hm with hm
      rw [← hm, hr] at hr0
      cases hr0

theorem shape_endOfData {T : List Event} {d : Bool} {o : Outcome} (hs : LoopShape T d o)
    (pre post : List Event) (hT : T = pre ++ Event.endOfData :: post) :
    post = [] ∧ ∃ pre0 r, pre = pre0 ++ [Event.read r] ∧ isEndOfStream r.err = true := by
  have hmem : Event.endOfData ∈ T := by rw [hT]; simp
  cases hs with
  | reading rs h => exact absurd hmem (endOfData_not_mem_okIterations rs)
  | endOfStream rs h r0 hr0 =>
    have hA : ∀ a ∈ okIterations rs ++ [Event.read r0], ¬ (a = Event.endOfData) := by
      intro a ha hq
      subst hq
      simp [endOfData_not_mem_okIterations] at ha
    have hcut := cut_unique (fun e => e = Event.endOfData) (okIterations rs ++ [Event.read r0]) []
      pre post Event.endOfData Event.endOfData hA (by simp) rfl (by rw [← hT]; simp)
    exact ⟨hcut.2.2, okIterations rs, r0, hcut.1, hr0⟩
  | parserError rs h r0 hr0 =>
    simp [endOfData_not_mem_okIterations] at hmem
  | sliceOutOfRange rs h r0 hr0 hl =>
    simp [endOfData_not_mem_okIterations] at hmem

theorem shape_count_endOfData {T : List Event} {d : Bool} {o : Outcome}
    (hs : LoopShape T d o) : T.count Event.endOfData ≤ 1 := by
  have h0 : ∀ rs, (okIterations rs).count Event.endOfData = 0 := fun rs =>
    List.count_eq_zero.2 (endOfData_not_mem_okIterations rs)
  cases hs <;> simp [List.count_append, h0]

theorem shape_append_false {T : List Event} {d : Bool} {o : Outcome} (hs : LoopShape T d o)
    (pre post : List Event) (c : List Byte) (hT : T = pre ++ Event.append c false :: post) :
    post = [Event.log LogMsg.parserError] ∧ d = true ∧ o = Outcome.returned ∧
      (∀ c0, Event.append c0 false ∉ pre) ∧ Event.endOfData ∉ pre := by
  have hmem : Event.append c false ∈ T := by rw [hT]; simp
  cases hs with
  | reading rs h => exact absurd (append_mem_okIterations rs c false hmem) (by simp)
  | endOfStream rs h r0 hr0 =>
    simp only [List.mem_append, List.mem_cons, List.mem_singleton] at hmem
    rcases hmem with hm | hm | hm | hm
    · exact absurd (append_mem_okIterations rs c false hm) (by simp)
    · cases hm
    · cases hm
    · simp at hm
  | parserError rs h r0 hr0 =>
    have hA : ∀ a ∈ okIterations rs ++ [Event.read r0], ¬ (∃ x, a = Event.append x false) := by
      rintro a ha ⟨x, rfl⟩
      simp only [List.mem_append, List.mem_singleton] at ha
      rcases ha with ha | ha
      · exact absurd (append_mem_okIterations rs x false ha) (by simp)
      · cases ha
    have hB : ∀ b ∈ [Event.log LogMsg.parserError], ¬ (∃ x, b = Event.append x false) := by
      rintro b hb ⟨x, rfl⟩
      simp at hb
    have hcut := cut_unique _ (okIterations rs ++ [Event.read r0])
      [Event.log LogMsg.parserError] pre post (Event.append c false)
      (Event.append r0.bytes false) hA hB ⟨c, rfl⟩ (by rw [← hT]; simp)
    refine ⟨hcut.2.2, rfl, rfl, ?_, ?_⟩
    · intro c0 hc0
      exact hA _ (hcut.1 ▸ hc0) ⟨c0, rfl⟩
    · rw [hcut.1]
      simp [endOfData_not_mem_okIterations]
  | sliceOutOfRange rs h r0 hr0 hl =>
    simp only [List.mem_append, List.mem_singleton] at hmem
    rcases hmem with hm | hm
    · exact absurd (append_mem_okIterations rs c false hm) (by simp)
    · cases hm

theorem iteration_end {σ : Type} (P : Parser σ) (s : LoopState σ) (r : ReadResult)
    (hr : isEndOfStream r.err = true) :
    (iteration P s r).trace = s.trace ++ [Event.read r, Event.endOfData] ∧
      (iteration P s r).done = true ∧ (iteration P s r).parser = P.EndOfData s.parser ∧
      (iteration P s r).outcome = Outcome.returned := by
  simp [iteration, hr]

theorem iteration_fail {σ : Type} (P : Parser σ) (s : LoopState σ) (r : ReadResult)
    (hr : GoodRead r) (hf : (P.Append s.parser r.bytes).2 = false) :
    (iteration P s r).trace = s.trace ++
        [Event.read r, Event.append r.bytes false, Event.log LogMsg.parserError] ∧
      (iteration P s r).done = true ∧ (iteration P s r).outcome = Outcome.returned := by
  have hl : ¬ 1024 < r.bytesRead := by have := hr.2; omega
  have hc : (r.bytes ++ s.buf.drop r.bytesRead).take r.bytesRead = r.bytes :=
    take_stored r.bytes s.buf
  simp [iteration, hr.1, hl, hc, hf]

theorem readLoop_next {σ : Type} (P : Parser σ) (rs rest : List ReadResult) (r : ReadResult)
    (s : LoopState σ) (hd : (readLoop P rs s).done = false)
    (hd2 : (iteration P (readLoop P rs s) r).done = true) :
    readLoop P (rs ++ r :: rest) s = iteration P (readLoop P rs s) r := by
  rw [readLoop_append]
  simp [readLoop, hd, readLoop_done _ _ _ hd2]

/-! ## The read loop: claims -/

/-- C1: in the read loop, a read that reports `io.EOF` or `io.ErrClosedPipe`
is followed by exactly the call `EndOfData` and nothing else, with the loop
finished and `main` returning; `EndOfData` is only ever called right after
such a read and is the last call; it is called at most once; when the loop
is still running and the next read reports end of stream, `EndOfData` is
called on the current parser; and a run in which `io.EOF` and
`io.ErrClosedPipe` are exchanged is the same run up to that exchange. -/
theorem endOfData_exactly_at_end_of_stream {σ : Type} (P : Parser σ) (p : σ)
    (rs : List ReadResult) :
    (∀ pre r post, (readLoop P rs (loopInit p)).trace = pre ++ Event.read r :: post →
        isEndOfStream r.err = true →
        post = [Event.endOfData] ∧ Event.endOfData ∉ pre ∧
          (readLoop P rs (loopInit p)).done = true ∧
          (readLoop P rs (loopInit p)).outcome = Outcome.returned) ∧
    (∀ pre post, (readLoop P rs (loopInit p)).trace = pre ++ Event.endOfData :: post →
        post = [] ∧ ∃ pre0 r, pre = pre0 ++ [Event.read r] ∧ isEndOfStream r.err = true) ∧
    (readLoop P rs (loopInit p)).trace.count Event.endOfData ≤ 1 ∧
    (∀ r rest, (readLoop P rs (loopInit p)).done = false → isEndOfStream r.err = true →
        (readLoop P (rs ++ r :: rest) (loopInit p)).trace =
            (readLoop P rs (loopInit p)).trace ++ [Event.read r, Event.endOfData] ∧
          (readLoop P (rs ++ r :: rest) (loopInit p)).done = true ∧
          (readLoop P (rs ++ r :: rest) (loopInit p)).parser =
            P.EndOfData (readLoop P rs (loopInit p)).parser) ∧
    readLoop P (rs.map swapEndRead) (loopInit p) = swapEndState (readLoop P rs (loopInit p)) := by
  have hs := readLoop_shape P rs p
  refine ⟨?_, ?_, shape_count_endOfData hs, ?_, ?_⟩
  · intro pre r post hT hr
    exact shape_end_read hs pre post r hT hr
  · intro pre post hT
    exact shape_endOfData hs pre post hT
  · intro r rest hd hr
    have hi := iteration_end P (readLoop P rs (loopInit p)) r hr
    rw [readLoop_next P rs rest r (loopInit p) hd hi.2.1]
    exact ⟨hi.1, hi.2.1, hi.2.2.1⟩
  · have h0 : swapEndState (loopInit p) = loopInit p := rfl
    have := readLoop_swapEnd P rs (loopInit p)
    rwa [h0] at this

/-- C1, on the sample reads: the third read reports the end of the file, so
`EndOfData` is the last call and the fourth read never happens. -/
theorem endOfData_exactly_at_end_of_stream_witness :
    [Event.endOfData] = [Event.endOfData] ∧
      Event.endOfData ∉ [Event.read ⟨[26, 69], ReadErr.nil⟩, Event.append [26, 69] true,
          Event.read ⟨[223], ReadErr.nil⟩, Event.append [223] true] ∧
      (readLoop sampleParser sampleEnv.reads (loopInit [])).done = true ∧
      (readLoop sampleParser sampleEnv.reads (loopInit [])).outcome = Outcome.returned :=
  (endOfData_exactly_at_end_of_stream sampleParser [] sampleEnv.reads).1 _
    ⟨[], ReadErr.EOF⟩ _ rfl rfl

/-- C2: in the read loop, an `Append` that returns false is followed only by
the log of the parser error: no further read, no further `Append` and no
`EndOfData`; the loop is finished and `main` returns; no `Append` failed and
no `EndOfData` was called before it; and when the loop is still running and
`Append` rejects the next chunk, the loop stops there. -/
theorem append_failure_stops_loop {σ : Type} (P : Parser σ) (p : σ) (rs : List ReadResult) :
    (∀ pre c post, (readLoop P rs (loopInit p)).trace = pre ++ Event.append c false :: post →
        post = [Event.log LogMsg.parserError] ∧
          (readLoop P rs (loopInit p)).done = true ∧
          (readLoop P rs (loopInit p)).outcome = Outcome.returned ∧
          (∀ c0, Event.append c0 false ∉ pre) ∧ Event.endOfData ∉ pre) ∧
    (∀ r rest, (readLoop P rs (loopInit p)).done = false → GoodRead r →
        (P.Append (readLoop P rs (loopInit p)).parser r.bytes).2 = false →
        (readLoop P (rs ++ r :: rest) (loopInit p)).trace =
            (readLoop P rs (loopInit p)).trace ++
              [Event.read r, Event.append r.bytes false, Event.log LogMsg.parserError] ∧
          (readLoop P (rs ++ r :: rest) (loopInit p)).done = true) := by
  have hs := readLoop_shape P rs p
  refine ⟨?_, ?_⟩
  · intro pre c post hT
    exact shape_append_false hs pre post c hT
  · intro r rest hd hr hf
    have hi := iteration_fail P (readLoop P rs (loopInit p)) r hr hf
    rw [readLoop_next P rs rest r (loopInit p) hd hi.2.1]
    exact ⟨hi.1, hi.2.1⟩

/-- C2, on reads whose second chunk is rejected: the third read, which
would report the end of the file, never happens. -/
theorem append_failure_stops_loop_witness :
    [Event.log LogMsg.parserError] = [Event.log LogMsg.parserError] ∧
      (readLoop sampleParser sampleFailingReads (loopInit [])).done = true ∧
      (readLoop sampleParser sampleFailingReads (loopInit [])).outcome = Outcome.returned ∧
      (∀ c0, Event.append c0 false ∉
        [Event.read ⟨[26, 69], ReadErr.nil⟩, Event.append [26, 69] true,
          Event.read ⟨[255, 1], ReadErr.nil⟩]) ∧
      Event.endOfData ∉
        [Event.read ⟨[26, 69], ReadErr.nil⟩, Event.append [26, 69] true,
          Event.read ⟨[255, 1], ReadErr.nil⟩] :=
  (append_failure_stops_loop sampleParser [] sampleFailingReads).1 _ [255, 1] _ rfl

/-- C4: when every read stores at most 1024 bytes, the size of `buf`, the
chunks passed to `Append` are, in order, the bytes of the reads that did not
report end of stream, one chunk per read; each chunk has at most 1024
bytes; the reads performed are an initial part of the read outcomes; and
when a read that reports end of stream stores no byte (as `(*os.File).Read`
does), the concatenation of the chunks is the concatenation of the bytes of
all reads performed, the one reporting end of stream included. -/
theorem reader_keeps_every_byte {σ : Type} (P : Parser σ) (p : σ) (rs : List ReadResult)
    (hlen : ∀ r ∈ rs, r.bytesRead ≤ 1024) :
    chunksOf (readLoop P rs (loopInit p)).trace =
        ((readsOf (readLoop P rs (loopInit p)).trace).filter
          (fun r => !isEndOfStream r.err)).map ReadResult.bytes ∧
    (∀ c ∈ chunksOf (readLoop P rs (loopInit p)).trace, c.length ≤ 1024) ∧
    readsOf (readLoop P rs (loopInit p)).trace <+: rs ∧
    ((∀ r ∈ rs, isEndOfStream r.err = true → r.bytes = []) →
      (chunksOf (readLoop P rs (loopInit p)).trace).flatten =
        ((readsOf (readLoop P rs (loopInit p)).trace).map ReadResult.bytes).flatten) := by
  have hs := readLoop_shape P rs p
  have hp := readLoop_reads_prefix P rs p
  have hfilter : ∀ l : List ReadResult, (∀ r ∈ l, GoodRead r) →
      l.filter (fun r => !isEndOfStream r.err) = l := by
    intro l hl
    apply List.filter_eq_self.2
    intro r hr
    simp [(hl r hr).1]
  have hlenmap : ∀ l : List ReadResult, (∀ r ∈ l, GoodRead r) →
      ∀ c ∈ l.map ReadResult.bytes, c.length ≤ 1024 := by
    intro l hl c hc
    obtain ⟨r, hr, rfl⟩ := List.mem_map.1 hc
    exact (hl r hr).2
  generalize hT : (readLoop P rs (loopInit p)).trace = T at hs hp
  generalize (readLoop P rs (loopInit p)).done = D at hs
  generalize (readLoop P rs (loopInit p)).outcome = O at hs
  cases hs with
  | reading rs0 h =>
    simp only [chunksOf_okIterations, readsOf_okIterations] at hp ⊢
    exact ⟨by rw [hfilter rs0 h], hlenmap rs0 h, hp, fun _ => trivial⟩
  | endOfStream rs0 h r hr =>
    simp only [chunksOf_append, readsOf_append, chunksOf_okIterations, readsOf_okIterations,
      chunksOf, readsOf, List.append_nil] at hp ⊢
    have hmem : r ∈ rs := hp.subset (by simp)
    refine ⟨?_, hlenmap rs0 h, hp, ?_⟩
    · rw [List.filter_append, hfilter rs0 h]
      simp [hr]
    · intro hz
      simp [hz r hmem hr]
  | parserError rs0 h r hr =>
    simp only [chunksOf_append, readsOf_append, chunksOf_okIterations, readsOf_okIterations,
      chunksOf, readsOf] at hp ⊢
    refine ⟨?_, ?_, hp, ?_⟩
    · rw [List.filter_append, hfilter rs0 h]
      simp [hr.1]
    · intro c hc
      rcases List.mem_append.1 hc with hc | hc
      · exact hlenmap rs0 h c hc
      · simp at hc; subst hc; exact hr.2
    · intro _
      simp
  | sliceOutOfRange rs0 h r hr hl =>
    simp only [readsOf_append, readsOf_okIterations, readsOf] at hp
    have hmem : r ∈ rs := hp.subset (by simp)
    have := hlen r hmem
    omega

/-- C4, on the sample reads: the chunks are `[26, 69]` and `[223]`, and
their concatenation is that of the bytes of the three reads performed. -/
theorem reader_keeps_every_byte_witness :
    chunksOf (readLoop sampleParser sampleEnv.reads (loopInit [])).trace = [[26, 69], [223]] ∧
    (chunksOf (readLoop sampleParser sampleEnv.reads (loopInit [])).trace).flatten =
      ((readsOf (readLoop sampleParser sampleEnv.reads (loopInit [])).trace).map
        ReadResult.bytes).flatten :=
  ⟨rfl, (reader_keeps_every_byte sampleParser [] sampleEnv.reads (by decide)).2.2.2
    (by decide)⟩

/-! ## `main`: lemmas -/

theorem loop_events {σ : Type} (P : Parser σ) (rs : List ReadResult) (p : σ) (e : Event)
    (he : e ∈ (readLoop P rs (loopInit p)).trace) :
    e.isOutputCall = false ∧ e.isInputCall = false ∧
      (∀ w m, e ≠ Event.newDemuxerClient w m) ∧ (∀ t, e ≠ Event.newParser t) ∧
      e ≠ Event.log LogMsg.invalidMinimumClusterDuration := by
  have hs := readLoop_shape P rs p
  have hok : ∀ l : List ReadResult, e ∈ okIterations l →
      e.isOutputCall = false ∧ e.isInputCall = false ∧
      (∀ w m, e ≠ Event.newDemuxerClient w m) ∧ (∀ t, e ≠ Event.newParser t) ∧
      e ≠ Event.log LogMsg.invalidMinimumClusterDuration := by
    intro l hl
    induction l with
    | nil => simp [okIterations] at hl
    | cons r l ih =>
      simp only [okIterations, List.mem_cons] at hl
      rcases hl with hl | hl | hl
      · subst hl; simp [Event.isOutputCall, Event.isInputCall]
      · subst hl; simp [Event.isOutputCall, Event.isInputCall]
      · exact ih hl
  generalize (readLoop P rs (loopInit p)).trace = T at hs he
  generalize (readLoop P rs (loopInit p)).done = D at hs
  generalize (readLoop P rs (loopInit p)).outcome = O at hs
  cases hs with
  | reading rs0 h => exact hok rs0 he
  | endOfStream rs0 h r hr =>
    simp only [List.mem_append, List.mem_cons, List.mem_singleton] at he
    rcases he with he | he | he | he
    · exact hok rs0 he
    · subst he; simp [Event.isOutputCall, Event.isInputCall]
    · subst he; simp [Event.isOutputCall, Event.isInputCall]
    · simp at he
  | parserError rs0 h r hr =>
    simp only [List.mem_append, List.mem_cons, List.mem_singleton] at he
    rcases he with he | he | he | he | he
    · exact hok rs0 he
    · subst he; simp [Event.isOutputCall, Event.isInputCall]
    · subst he; simp [Event.isOutputCall, Event.isInputCall]
    · subst he; simp [Event.isOutputCall, Event.isInputCall]
    · simp at he
  | sliceOutOfRange rs0 h r hr hl =>
    simp only [List.mem_append, List.mem_singleton] at he
    rcases he with he | he
    · exact hok rs0 he
    · subst he; simp [Event.isOutputCall, Event.isInputCall]

theorem openInput_events {σ : Type} (env : Env σ) (inputArg : String) (e : Event)
    (he : e ∈ (openInput env inputArg).1) :
    e.isOutputCall = false ∧ e.isRemuxCall = false ∧
      e ≠ Event.log LogMsg.invalidMinimumClusterDuration := by
  unfold openInput at he
  split_ifs at he
  · simp at he; subst he; simp [Event.isOutputCall, Event.isRemuxCall]
  · simp at he; subst he; simp [Event.isOutputCall, Event.isRemuxCall]
  · simp at he
    rcases he with he | he | he <;> subst he <;> simp [Event.isOutputCall, Event.isRemuxCall]

theorem createOutput_events {σ : Type} (env : Env σ) (inputArg outputArg : String)
    (e : Event) (he : e ∈ (createOutput env inputArg outputArg).1) :
    e.isInputCall = false ∧ e.isRemuxCall = false ∧
      e ≠ Event.log LogMsg.invalidMinimumClusterDuration := by
  unfold createOutput at he
  split_ifs at he
  · simp at he; subst he; simp [Event.isInputCall, Event.isRemuxCall]
  · simp at he; subst he; simp [Event.isInputCall, Event.isRemuxCall]
  · split at he
    · simp at he
      rcases he with he | he | he <;> subst he <;> simp [Event.isInputCall, Event.isRemuxCall]
    · split_ifs at he <;> simp at he
      · rcases he with he | he | he <;> subst he <;>
          simp [Event.isInputCall, Event.isRemuxCall]
      · rcases he with he | he | he | he <;> subst he <;>
          simp [Event.isInputCall, Event.isRemuxCall]
  · simp at he
    rcases he with he | he <;> subst he <;> simp [Event.isInputCall, Event.isRemuxCall]
  · simp at he
    rcases he with he | he | he <;> subst he <;> simp [Event.isInputCall, Event.isRemuxCall]

/-- The five ways through `main`. -/
theorem main_cases {σ : Type} (P : Parser σ) (env : Env σ) (cl : CommandLine) :
    (¬ (0 ≤ minClusterDuration cl ∧ minClusterDuration cl ≤ 30000) ∧
      main P env cl = { trace := [Event.log LogMsg.invalidMinimumClusterDuration, Event.exit (-1)],
                        outcome := Outcome.exited (-1), parser := none }) ∨
    ((0 ≤ minClusterDuration cl ∧ minClusterDuration cl ≤ 30000) ∧ cl.args.length < 2 ∧
      main P env cl = { trace := [Event.log LogMsg.usage], outcome := Outcome.returned,
                        parser := none }) ∨
    ((0 ≤ minClusterDuration cl ∧ minClusterDuration cl ≤ 30000) ∧ 2 ≤ cl.args.length ∧
      (openInput env (flagArg cl.args 0)).2 = false ∧
      main P env cl = { trace := (openInput env (flagArg cl.args 0)).1,
                        outcome := Outcome.exited (-1), parser := none }) ∨
    ((0 ≤ minClusterDuration cl ∧ minClusterDuration cl ≤ 30000) ∧ 2 ≤ cl.args.length ∧
      (openInput env (flagArg cl.args 0)).2 = true ∧
      ∃ evs o, createOutput env (flagArg cl.args 0) (flagArg cl.args 1) = (evs, Sum.inr o) ∧
        main P env cl = { trace := (openInput env (flagArg cl.args 0)).1 ++ evs,
                          outcome := o, parser := none }) ∨
    ((0 ≤ minClusterDuration cl ∧ minClusterDuration cl ≤ 30000) ∧ 2 ≤ cl.args.length ∧
      (openInput env (flagArg cl.args 0)).2 = true ∧
      ∃ evs out, createOutput env (flagArg cl.args 0) (flagArg cl.args 1) = (evs, Sum.inl out) ∧
        main P env cl =
          { trace := (openInput env (flagArg cl.args 0)).1 ++ evs ++
              [Event.newDemuxerClient out (minClusterDuration cl), Event.newParser typeInfo] ++
              (readLoop P env.reads (loopInit env.parser0)).trace,
            outcome := (readLoop P env.reads (loopInit env.parser0)).outcome,
            parser := some (readLoop P env.reads (loopInit env.parser0)).parser }) := by
  by_cases hv : 0 ≤ minClusterDuration cl ∧ minClusterDuration cl ≤ 30000
  · have hv' : ¬ (cl.cm.getD 250 < 0 ∨ cl.cm.getD 250 > 30000) := by
      unfold minClusterDuration at hv; omega
    by_cases hn : cl.args.length < 2
    · right; left
      exact ⟨hv, hn, by simp [main, hv', hn]⟩
    · have hn2 : 2 ≤ cl.args.length := by omega
      by_cases ho : (openInput env (flagArg cl.args 0)).2 = true
      · rcases hc : createOutput env (flagArg cl.args 0) (flagArg cl.args 1) with ⟨evs, w | o⟩
        · right; right; right; right
          refine ⟨hv, hn2, ho, evs, w, rfl, ?_⟩
          simp [main, hv', hn, ho, hc, minClusterDuration]
        · right; right; right; left
          refine ⟨hv, hn2, ho, evs, o, rfl, ?_⟩
          simp [main, hv', hn, ho, hc]
      · have ho' : (openInput env (flagArg cl.args 0)).2 = false := by simpa using ho
        right; right; left
        exact ⟨hv, hn2, ho', by simp [main, hv', hn, ho']⟩
  · left
    have hv' : cl.cm.getD 250 < 0 ∨ cl.cm.getD 250 > 30000 := by
      unfold minClusterDuration at hv; omega
    exact ⟨hv, by simp [main, hv']⟩

theorem writersOf_append (a b : List Event) : writersOf (a ++ b) = writersOf a ++ writersOf b := by
  induction a with
  | nil => rfl
  | cons e a ih => cases e <;> simp [writersOf, ih]

theorem writersOf_eq_nil (l : List Event) (h : ∀ e ∈ l, e.isOutputCall = false) :
    writersOf l = [] := by
  induction l with
  | nil => rfl
  | cons e l ih =>
    have he := h e (by simp)
    have hl := ih (fun x hx => h x (List.mem_cons_of_mem _ hx))
    cases e <;> simp_all [writersOf, Event.isOutputCall]

theorem writersOf_loop {σ : Type} (P : Parser σ) (rs : List ReadResult) (p : σ) :
    writersOf (readLoop P rs (loopInit p)).trace = [] :=
  writersOf_eq_nil _ (fun e he => (loop_events P rs p e he).1)

theorem writersOf_openInput {σ : Type} (env : Env σ) (inputArg : String) :
    writersOf (openInput env inputArg).1 = [] :=
  writersOf_eq_nil _ (fun e he => (openInput_events env inputArg e he).1)

/-- The three ways `createOutput` yields a writer. -/
theorem createOutput_inl {σ : Type} (env : Env σ) (inputArg outputArg : String)
    (evs : List Event) (w : Writer)
    (h : createOutput env inputArg outputArg = (evs, Sum.inl w)) :
    (outputArg = "-" ∧ w = Writer.NewNonSeekableWriter Sink.stdout ∧
      evs = [Event.newNonSeekableWriter Sink.stdout]) ∨
    (outputArg ≠ "-" ∧ inputArg ≠ outputArg ∧ HasPrefix outputArg "ws://" = true ∧
      ∃ url, env.parseUrl outputArg = some url ∧ env.dialOk url = true ∧
        w = Writer.NewNonSeekableWriter (Sink.websocket url) ∧
        evs = [Event.urlParse outputArg, Event.websocketDial url,
          Event.newNonSeekableWriter (Sink.websocket url)]) ∨
    (outputArg ≠ "-" ∧ inputArg ≠ outputArg ∧ HasPrefix outputArg "ws://" = false ∧
      env.createOk outputArg = true ∧ w = Writer.NewWriter (Sink.file outputArg) ∧
      evs = [Event.osCreate outputArg, Event.newWriter (Sink.file outputArg)]) := by
  unfold createOutput at h
  split_ifs at h with h1 h2 h3 h4
  · left
    simp only [Prod.mk.injEq, Sum.inl.injEq] at h
    exact ⟨h1, h.2.symm, h.1.symm⟩
  · simp at h
  · right; left
    split at h
    · simp at h
    · rename_i url hu
      split_ifs at h with h5
      · simp only [Prod.mk.injEq, Sum.inl.injEq] at h
        exact ⟨h1, h2, h3, url, hu, h5, h.2.symm, h.1.symm⟩
      · simp at h
  · right; right
    simp only [Prod.mk.injEq, Sum.inl.injEq] at h
    exact ⟨h1, h2, by simpa using h3, h4, h.2.symm, h.1.symm⟩
  · simp at h

/-- When `createOutput` ends the run, no writer was constructed, and the
output argument is not `-`. -/
theorem createOutput_inr {σ : Type} (env : Env σ) (inputArg outputArg : String)
    (evs : List Event) (o : Outcome)
    (h : createOutput env inputArg outputArg = (evs, Sum.inr o)) :
    writersOf evs = [] ∧ outputArg ≠ "-" ∧ o ≠ Outcome.reading := by
  unfold createOutput at h
  split_ifs at h with h1 h2 h3 h4
  · simp at h
  · simp only [Prod.mk.injEq, Sum.inr.injEq] at h
    obtain ⟨rfl, rfl⟩ := h
    exact ⟨rfl, h1, by simp⟩
  · split at h
    · simp only [Prod.mk.injEq, Sum.inr.injEq] at h
      obtain ⟨rfl, rfl⟩ := h
      exact ⟨rfl, h1, by simp⟩
    · split_ifs at h with h5
      · simp at h
      · simp only [Prod.mk.injEq, Sum.inr.injEq] at h
        obtain ⟨rfl, rfl⟩ := h
        exact ⟨rfl, h1, by simp⟩
  · simp at h
  · simp only [Prod.mk.injEq, Sum.inr.injEq] at h
    obtain ⟨rfl, rfl⟩ := h
    exact ⟨rfl, h1, by simp⟩

/-- With equal input and output arguments other than `-`, `createOutput`
only logs and returns. -/
theorem createOutput_same {σ : Type} (env : Env σ) (name : String) (h : name ≠ "-") :
    createOutput env name name = ([Event.log LogMsg.sameFilenames], Sum.inr Outcome.returned) := by
  simp [createOutput, h]

/-! ## `main`: claims -/

theorem main_trace_no_invalid_log {σ : Type} (P : Parser σ) (env : Env σ) (cl : CommandLine)
    (hv : 0 ≤ minClusterDuration cl ∧ minClusterDuration cl ≤ 30000) :
    Event.log LogMsg.invalidMinimumClusterDuration ∉ (main P env cl).trace := by
  intro hmem
  rcases main_cases P env cl with h | h | h | h | h
  · exact h.1 hv
  · rw [h.2.2] at hmem; simp at hmem
  · rw [h.2.2.2] at hmem
    exact (openInput_events env _ _ hmem).2.2 rfl
  · obtain ⟨_, _, _, evs, o, hc, hm⟩ := h
    rw [hm] at hmem
    rcases List.mem_append.1 hmem with hx | hx
    · exact (openInput_events env _ _ hx).2.2 rfl
    · have : evs = (createOutput env (flagArg cl.args 0) (flagArg cl.args 1)).1 := by rw [hc]
      rw [this] at hx
      exact (createOutput_events env _ _ _ hx).2.2 rfl
  · obtain ⟨_, _, _, evs, out, hc, hm⟩ := h
    rw [hm] at hmem
    simp only [List.mem_append, List.mem_cons, List.mem_singleton] at hmem
    rcases hmem with ((hx | hx) | hx) | hx
    · exact (openInput_events env _ _ hx).2.2 rfl
    · have : evs = (createOutput env (flagArg cl.args 0) (flagArg cl.args 1)).1 := by rw [hc]
      rw [this] at hx
      exact (createOutput_events env _ _ _ hx).2.2 rfl
    · rcases hx with hx | hx | hx
      · cases hx
      · cases hx
      · simp at hx
    · exact (loop_events P _ _ _ hx).2.2.2.2 rfl

theorem main_newDemuxerClient {σ : Type} (P : Parser σ) (env : Env σ) (cl : CommandLine)
    (out : Writer) (m : Int) (hmem : Event.newDemuxerClient out m ∈ (main P env cl).trace) :
    m = minClusterDuration cl ∧ (0 ≤ m ∧ m ≤ 30000) ∧
      ∃ evs, createOutput env (flagArg cl.args 0) (flagArg cl.args 1) = (evs, Sum.inl out) ∧
        writersOf (main P env cl).trace = writersOf evs := by
  rcases main_cases P env cl with h | h | h | h | h
  · rw [h.2] at hmem; simp at hmem
  · rw [h.2.2] at hmem; simp at hmem
  · rw [h.2.2.2] at hmem
    have := (openInput_events env _ _ hmem).2.1
    simp [Event.isRemuxCall] at this
  · obtain ⟨_, _, _, evs, o, hc, hm⟩ := h
    rw [hm] at hmem
    rcases List.mem_append.1 hmem with hx | hx
    · have := (openInput_events env _ _ hx).2.1
      simp [Event.isRemuxCall] at this
    · have : evs = (createOutput env (flagArg cl.args 0) (flagArg cl.args 1)).1 := by rw [hc]
      rw [this] at hx
      have := (createOutput_events env _ _ _ hx).2.1
      simp [Event.isRemuxCall] at this
  · obtain ⟨hv, _, _, evs, w, hc, hm⟩ := h
    rw [hm] at hmem
    simp only [List.mem_append, List.mem_cons, List.mem_singleton] at hmem
    rcases hmem with ((hx | hx) | hx) | hx
    · have := (openInput_events env _ _ hx).2.1
      simp [Event.isRemuxCall] at this
    · have : evs = (createOutput env (flagArg cl.args 0) (flagArg cl.args 1)).1 := by rw [hc]
      rw [this] at hx
      have := (createOutput_events env _ _ _ hx).2.1
      simp [Event.isRemuxCall] at this
    · rcases hx with hx | hx | hx
      · injection hx with h1 h2
        subst h1 h2
        refine ⟨rfl, hv, evs, hc, ?_⟩
        rw [hm]
        simp [writersOf_append, writersOf_loop, writersOf_openInput, writersOf]
      · cases hx
      · simp at hx
    · exact absurd rfl ((loop_events P _ _ _ hx).2.2.1 out m)

/-- C3: for every value `v` of `-cm`, `main` logs the invalid-duration
message exactly when `v` is outside 0..30000, and in that case the run is
just that message followed by `os.Exit(-1)`: no input is opened, no writer
created, no remuxer constructed.  Every value passed to
`remuxer.NewDemuxerClient` is the flag value and lies in 0..30000.  Without
the flag the value is the default 250, which passes validation. -/
theorem cm_flag_validation {σ : Type} (P : Parser σ) (env : Env σ) (args : List String)
    (v : Int) :
    (Event.log LogMsg.invalidMinimumClusterDuration ∉ (main P env ⟨some v, args⟩).trace ↔
        0 ≤ v ∧ v ≤ 30000) ∧
    ((v < 0 ∨ 30000 < v) →
        main P env ⟨some v, args⟩ =
          { trace := [Event.log LogMsg.invalidMinimumClusterDuration, Event.exit (-1)],
            outcome := Outcome.exited (-1), parser := none }) ∧
    (∀ out m, Event.newDemuxerClient out m ∈ (main P env ⟨some v, args⟩).trace →
        m = v ∧ 0 ≤ m ∧ m ≤ 30000) ∧
    (Event.log LogMsg.invalidMinimumClusterDuration ∉ (main P env ⟨none, args⟩).trace ∧
      ∀ out m, Event.newDemuxerClient out m ∈ (main P env ⟨none, args⟩).trace → m = 250) := by
  have hinv : (v < 0 ∨ 30000 < v) →
      main P env ⟨some v, args⟩ =
          { trace := [Event.log LogMsg.invalidMinimumClusterDuration, Event.exit (-1)],
            outcome := Outcome.exited (-1), parser := none } := by
    intro h
    have h' : (v < 0 ∨ v > 30000) := h
    simp [main, h']
  refine ⟨⟨?_, ?_⟩, hinv, ?_, ?_, ?_⟩
  · intro hn
    by_contra hv
    have h' : v < 0 ∨ 30000 < v := by omega
    rw [hinv h'] at hn
    simp at hn
  · intro hv
    exact main_trace_no_invalid_log P env ⟨some v, args⟩ (by simpa [minClusterDuration] using hv)
  · intro out m hmem
    have := main_newDemuxerClient P env ⟨some v, args⟩ out m hmem
    exact ⟨by simpa [minClusterDuration] using this.1, this.2.1⟩
  · exact main_trace_no_invalid_log P env ⟨none, args⟩ (by simp [minClusterDuration])
  · intro out m hmem
    have := main_newDemuxerClient P env ⟨none, args⟩ out m hmem
    simpa [minClusterDuration] using this.1

/-- C3, at the value 30001: the run is the log message and `os.Exit(-1)`. -/
theorem cm_flag_validation_witness :
    main sampleParser sampleEnv ⟨some 30001, ["in.webm", "out.webm"]⟩ =
      { trace := [Event.log LogMsg.invalidMinimumClusterDuration, Event.exit (-1)],
        outcome := Outcome.exited (-1), parser := none } :=
  (cm_flag_validation sampleParser sampleEnv ["in.webm", "out.webm"] 30001).2.1
    (Or.inr (by decide))

/-- C5: the writers constructed in a run are none or exactly one, and that
one has the variant the output argument alone determines: `-` gives the
non-seekable writer on standard output, an argument starting with `ws://`
the non-seekable writer on the dialed websocket, anything else the seekable
writer on the created file.  The remuxer receives that writer.  The seekable
constructor `ebml.NewWriter` is called only on the file named by an output
argument that is neither `-` nor a `ws://` URL.  When the steps before it
succeed, each of the three writers is indeed constructed. -/
theorem writer_variant_from_output_argument {σ : Type} (P : Parser σ) (env : Env σ)
    (cl : CommandLine) :
    (writersOf (main P env cl).trace = [] ∨
      ∃ w, writersOf (main P env cl).trace = [w] ∧
        w.variant = some (variantOf (flagArg cl.args 1)) ∧
        ((flagArg cl.args 1 = "-" ∧ w = Writer.NewNonSeekableWriter Sink.stdout) ∨
         (flagArg cl.args 1 ≠ "-" ∧ HasPrefix (flagArg cl.args 1) "ws://" = true ∧
            ∃ url, env.parseUrl (flagArg cl.args 1) = some url ∧
              w = Writer.NewNonSeekableWriter (Sink.websocket url)) ∨
         (flagArg cl.args 1 ≠ "-" ∧ HasPrefix (flagArg cl.args 1) "ws://" = false ∧
            w = Writer.NewWriter (Sink.file (flagArg cl.args 1))))) ∧
    (∀ out m, Event.newDemuxerClient out m ∈ (main P env cl).trace →
        writersOf (main P env cl).trace = [out]) ∧
    (∀ s, Writer.NewWriter s ∈ writersOf (main P env cl).trace →
        s = Sink.file (flagArg cl.args 1) ∧ flagArg cl.args 1 ≠ "-" ∧
          HasPrefix (flagArg cl.args 1) "ws://" = false) ∧
    ((0 ≤ minClusterDuration cl ∧ minClusterDuration cl ≤ 30000) → 2 ≤ cl.args.length →
        (openInput env (flagArg cl.args 0)).2 = true →
        (flagArg cl.args 1 = "-" →
          writersOf (main P env cl).trace = [Writer.NewNonSeekableWriter Sink.stdout]) ∧
        (flagArg cl.args 1 ≠ "-" → flagArg cl.args 0 ≠ flagArg cl.args 1 →
          HasPrefix (flagArg cl.args 1) "ws://" = true →
          ∀ url, env.parseUrl (flagArg cl.args 1) = some url → env.dialOk url = true →
          writersOf (main P env cl).trace = [Writer.NewNonSeekableWriter (Sink.websocket url)]) ∧
        (flagArg cl.args 1 ≠ "-" → flagArg cl.args 0 ≠ flagArg cl.args 1 →
          HasPrefix (flagArg cl.args 1) "ws://" = false →
          env.createOk (flagArg cl.args 1) = true →
          writersOf (main P env cl).trace = [Writer.NewWriter (Sink.file (flagArg cl.args 1))])) := by
  have key : writersOf (main P env cl).trace = [] ∨
      ∃ evs w, createOutput env (flagArg cl.args 0) (flagArg cl.args 1) = (evs, Sum.inl w) ∧
        writersOf (main P env cl).trace = writersOf evs := by
    rcases main_cases P env cl with h | h | h | h | h
    · left; rw [h.2]; rfl
    · left; rw [h.2.2]; rfl
    · left; rw [h.2.2.2]; exact writersOf_openInput env _
    · obtain ⟨_, _, _, evs, o, hc, hm⟩ := h
      left
      rw [hm]
      simp [writersOf_append, writersOf_openInput, (createOutput_inr env _ _ evs o hc).1]
    · obtain ⟨_, _, _, evs, w, hc, hm⟩ := h
      right
      refine ⟨evs, w, hc, ?_⟩
      rw [hm]
      simp [writersOf_append, writersOf_loop, writersOf_openInput, writersOf]
  have shape : ∀ evs w,
      createOutput env (flagArg cl.args 0) (flagArg cl.args 1) = (evs, Sum.inl w) →
      writersOf evs = [w] ∧ w.variant = some (variantOf (flagArg cl.args 1)) ∧
        ((flagArg cl.args 1 = "-" ∧ w = Writer.NewNonSeekableWriter Sink.stdout) ∨
         (flagArg cl.args 1 ≠ "-" ∧ HasPrefix (flagArg cl.args 1) "ws://" = true ∧
            ∃ url, env.parseUrl (flagArg cl.args 1) = some url ∧
              w = Writer.NewNonSeekableWriter (Sink.websocket url)) ∨
         (flagArg cl.args 1 ≠ "-" ∧ HasPrefix (flagArg cl.args 1) "ws://" = false ∧
            w = Writer.NewWriter (Sink.file (flagArg cl.args 1)))) := by
    intro evs w hc
    rcases createOutput_inl env _ _ evs w hc with h | h | h
    · obtain ⟨h1, rfl, rfl⟩ := h
      exact ⟨rfl, by simp [Writer.variant, variantOf, h1], Or.inl ⟨h1, rfl⟩⟩
    · obtain ⟨h1, _, h3, url, hu, _, rfl, rfl⟩ := h
      exact ⟨rfl, by simp [Writer.variant, variantOf, h1, h3],
        Or.inr (Or.inl ⟨h1, h3, url, hu, rfl⟩)⟩
    · obtain ⟨h1, _, h3, _, rfl, rfl⟩ := h
      exact ⟨rfl, by simp [Writer.variant, variantOf, h1, h3], Or.inr (Or.inr ⟨h1, h3, rfl⟩)⟩
  have full : (0 ≤ minClusterDuration cl ∧ minClusterDuration cl ≤ 30000) →
      2 ≤ cl.args.length → (openInput env (flagArg cl.args 0)).2 = true →
      ∀ evs w, createOutput env (flagArg cl.args 0) (flagArg cl.args 1) = (evs, Sum.inl w) →
      writersOf (main P env cl).trace = writersOf evs := by
    intro hv h2 ho evs w hc
    have hv' : ¬ (cl.cm.getD 250 < 0 ∨ cl.cm.getD 250 > 30000) := by
      unfold minClusterDuration at hv; omega
    have hn : ¬ cl.args.length < 2 := by omega
    simp [main, hv', hn, ho, hc, writersOf_append, writersOf_loop, writersOf_openInput,
      writersOf]
  refine ⟨?_, ?_, ?_, ?_⟩
  · rcases key with h | ⟨evs, w, hc, hw⟩
    · exact Or.inl h
    · right
      obtain ⟨h1, h2, h3⟩ := shape evs w hc
      exact ⟨w, by rw [hw, h1], h2, h3⟩
  · intro out m hmem
    obtain ⟨_, _, evs, hc, hw⟩ := main_newDemuxerClient P env cl out m hmem
    rw [hw, (shape evs out hc).1]
  · intro s hs
    rcases key with h | ⟨evs, w, hc, hw⟩
    · rw [h] at hs; simp at hs
    · obtain ⟨h1, _, h3⟩ := shape evs w hc
      rw [hw, h1] at hs
      simp at hs
      subst hs
      rcases h3 with h3 | h3 | h3
      · cases h3.2
      · obtain ⟨_, _, url, _, h4⟩ := h3
        cases h4
      · obtain ⟨h4, h5, h6⟩ := h3
        injection h6 with h6
        exact ⟨h6, h4, h5⟩
  · intro hv h2 ho
    refine ⟨?_, ?_, ?_⟩
    · intro h1
      have hc : createOutput env (flagArg cl.args 0) (flagArg cl.args 1) =
          ([Event.newNonSeekableWriter Sink.stdout],
            Sum.inl (Writer.NewNonSeekableWriter Sink.stdout)) := by
        simp [createOutput, h1]
      rw [full hv h2 ho _ _ hc]; rfl
    · intro h1 hne h3 url hu hd
      have hc : createOutput env (flagArg cl.args 0) (flagArg cl.args 1) =
          ([Event.urlParse (flagArg cl.args 1), Event.websocketDial url,
              Event.newNonSeekableWriter (Sink.websocket url)],
            Sum.inl (Writer.NewNonSeekableWriter (Sink.websocket url))) := by
        simp [createOutput, h1, hne, h3, hu, hd]
      rw [full hv h2 ho _ _ hc]; rfl
    · intro h1 hne h3 hok
      have hc : createOutput env (flagArg cl.args 0) (flagArg cl.args 1) =
          ([Event.osCreate (flagArg cl.args 1), Event.newWriter (Sink.file (flagArg cl.args 1))],
            Sum.inl (Writer.NewWriter (Sink.file (flagArg cl.args 1)))) := by
        simp [createOutput, h1, hne, h3, hok]
      rw [full hv h2 ho _ _ hc]; rfl

/-- C5, on three command lines: `-` gives the non-seekable writer on
standard output, a `ws://` URL the non-seekable writer on the websocket, a
file name the seekable writer on that file. -/
theorem writer_variant_from_output_argument_witness :
    writersOf (main sampleParser sampleEnv ⟨none, ["in.webm", "-"]⟩).trace =
        [Writer.NewNonSeekableWriter Sink.stdout] ∧
    writersOf (main sampleParser sampleEnv ⟨none, ["in.webm", "ws://host/live"]⟩).trace =
        [Writer.NewNonSeekableWriter (Sink.websocket "ws://host/live")] ∧
    writersOf (main sampleParser sampleEnv ⟨none, ["in.webm", "out.webm"]⟩).trace =
        [Writer.NewWriter (Sink.file "out.webm")] :=
  ⟨((writer_variant_from_output_argument sampleParser sampleEnv ⟨none, ["in.webm", "-"]⟩).2.2.2
      (by decide) (by decide) (by decide)).1 (by decide),
   ((writer_variant_from_output_argument sampleParser sampleEnv
      ⟨none, ["in.webm", "ws://host/live"]⟩).2.2.2
      (by decide) (by decide) (by decide)).2.1 (by decide) (by decide) (by decide)
      "ws://host/live" rfl rfl,
   ((writer_variant_from_output_argument sampleParser sampleEnv
      ⟨none, ["in.webm", "out.webm"]⟩).2.2.2
      (by decide) (by decide) (by decide)).2.2 (by decide) (by decide) (by decide) rfl⟩

/-- C6: the table `typeInfo` has seven entries with seven different
identifiers: Header is Binary, Segment is List, Info is Binary, Tracks is
Binary, Cluster is List, Timecode is Uint, SimpleBlock is Binary; no other
identifier is registered.  The identifiers registered as List are exactly
Segment and Cluster, every other registered identifier is Binary or Uint,
and this table is the one every run hands to `ebml.NewParser`. -/
theorem typeInfo_entries :
    typeInfo.length = 7 ∧ (typeInfo.map Prod.fst).Nodup ∧
    typeInfoLookup ElementId.IdHeader = some ElementType.TypeBinary ∧
    typeInfoLookup ElementId.IdSegment = some ElementType.TypeList ∧
    typeInfoLookup ElementId.IdInfo = some ElementType.TypeBinary ∧
    typeInfoLookup ElementId.IdTracks = some ElementType.TypeBinary ∧
    typeInfoLookup ElementId.IdCluster = some ElementType.TypeList ∧
    typeInfoLookup ElementId.IdTimecode = some ElementType.TypeUint ∧
    typeInfoLookup ElementId.IdSimpleBlock = some ElementType.TypeBinary ∧
    (∀ raw, typeInfoLookup (ElementId.unregistered raw) = none) ∧
    listIds typeInfo = [ElementId.IdSegment, ElementId.IdCluster] ∧
    (∀ id, typeInfoLookup id = some ElementType.TypeList ↔
        id = ElementId.IdSegment ∨ id = ElementId.IdCluster) ∧
    (∀ id t, typeInfoLookup id = some t → id ≠ ElementId.IdSegment →
        id ≠ ElementId.IdCluster → t = ElementType.TypeBinary ∨ t = ElementType.TypeUint) ∧
    (∀ (σ : Type) (P : Parser σ) (env : Env σ) (cl : CommandLine) (t : _),
        Event.newParser t ∈ (main P env cl).trace → t = typeInfo) := by
  refine ⟨rfl, by decide, rfl, rfl, rfl, rfl, rfl, rfl, rfl, fun _ => rfl, rfl, ?_, ?_, ?_⟩
  · intro id
    cases id <;> simp [typeInfoLookup, typeInfo]
  · intro id t h _ _
    cases id <;> simp_all [typeInfoLookup, typeInfo]
  · intro σ P env cl t hmem
    rcases main_cases P env cl with h | h | h | h | h
    · rw [h.2] at hmem; simp at hmem
    · rw [h.2.2] at hmem; simp at hmem
    · rw [h.2.2.2] at hmem
      have := (openInput_events env _ _ hmem).2.1
      simp [Event.isRemuxCall] at this
    · obtain ⟨_, _, _, evs, o, hc, hm⟩ := h
      rw [hm] at hmem
      rcases List.mem_append.1 hmem with hx | hx
      · have := (openInput_events env _ _ hx).2.1
        simp [Event.isRemuxCall] at this
      · have : evs = (createOutput env (flagArg cl.args 0) (flagArg cl.args 1)).1 := by rw [hc]
        rw [this] at hx
        have := (createOutput_events env _ _ _ hx).2.1
        simp [Event.isRemuxCall] at this
    · obtain ⟨_, _, _, evs, w, hc, hm⟩ := h
      rw [hm] at hmem
      simp only [List.mem_append, List.mem_cons, List.mem_singleton] at hmem
      rcases hmem with ((hx | hx) | hx) | hx
      · have := (openInput_events env _ _ hx).2.1
        simp [Event.isRemuxCall] at this
      · have : evs = (createOutput env (flagArg cl.args 0) (flagArg cl.args 1)).1 := by rw [hc]
        rw [this] at hx
        have := (createOutput_events env _ _ _ hx).2.1
        simp [Event.isRemuxCall] at this
      · rcases hx with hx | hx | hx
        · cases hx
        · injection hx
        · simp at hx
      · exact absurd rfl ((loop_events P _ _ _ hx).2.2.2.1 t)

theorem createOutput_osCreate {σ : Type} (env : Env σ) (inputArg outputArg name : String)
    (h : Event.osCreate name ∈ (createOutput env inputArg outputArg).1) :
    name = outputArg ∧ inputArg ≠ outputArg := by
  unfold createOutput at h
  split_ifs at h with h1 h2 h3 h4
  · simp at h
  · simp at h
  · split at h
    · simp at h
    · split_ifs at h <;> simp at h
  · simp at h
    exact ⟨h, h2⟩
  · simp at h
    exact ⟨h, h2⟩

theorem main_osCreate {σ : Type} (P : Parser σ) (env : Env σ) (cl : CommandLine)
    (name : String) (hmem : Event.osCreate name ∈ (main P env cl).trace) :
    name = flagArg cl.args 1 ∧ flagArg cl.args 0 ≠ flagArg cl.args 1 := by
  rcases main_cases P env cl with h | h | h | h | h
  · rw [h.2] at hmem; simp at hmem
  · rw [h.2.2] at hmem; simp at hmem
  · rw [h.2.2.2] at hmem
    have := (openInput_events env _ _ hmem).1
    simp [Event.isOutputCall] at this
  · obtain ⟨_, _, _, evs, o, hc, hm⟩ := h
    rw [hm] at hmem
    rcases List.mem_append.1 hmem with hx | hx
    · have := (openInput_events env _ _ hx).1
      simp [Event.isOutputCall] at this
    · have : evs = (createOutput env (flagArg cl.args 0) (flagArg cl.args 1)).1 := by rw [hc]
      rw [this] at hx
      exact createOutput_osCreate env _ _ _ hx
  · obtain ⟨_, _, _, evs, w, hc, hm⟩ := h
    rw [hm] at hmem
    simp only [List.mem_append, List.mem_cons, List.mem_singleton] at hmem
    rcases hmem with ((hx | hx) | hx) | hx
    · have := (openInput_events env _ _ hx).1
      simp [Event.isOutputCall] at this
    · have : evs = (createOutput env (flagArg cl.args 0) (flagArg cl.args 1)).1 := by rw [hc]
      rw [this] at hx
      exact createOutput_osCreate env _ _ _ hx
    · rcases hx with hx | hx | hx
      · cases hx
      · cases hx
      · simp at hx
    · have := (loop_events P _ _ _ hx).1
      simp [Event.isOutputCall] at this

/-- C10: when the output argument is not `-` and equals the input
argument, the run makes no call that creates or connects an output
(`os.Create`, `url.Parse`, `websocket.Dial`, a writer constructor), none
that builds or drives the remuxer or the parser, and it ends; when the flag
is valid and the input opens, `main` opens the input, logs the message and
returns, also for a `ws://` name.  In every run `os.Create` is only ever
called on the output argument, and only when it differs from the input
argument.  With both arguments `-` the guard is not reached: the run goes
from standard input to the non-seekable writer on standard output and into
the read loop. -/
theorem same_name_guard {σ : Type} (P : Parser σ) (env : Env σ) (cl : CommandLine) :
    (2 ≤ cl.args.length → flagArg cl.args 1 ≠ "-" → flagArg cl.args 1 = flagArg cl.args 0 →
        (∀ e ∈ (main P env cl).trace, e.isOutputCall = false ∧ e.isRemuxCall = false) ∧
        writersOf (main P env cl).trace = [] ∧
        (main P env cl).parser = none ∧
        (main P env cl).outcome ≠ Outcome.reading ∧
        ((0 ≤ minClusterDuration cl ∧ minClusterDuration cl ≤ 30000) →
          env.openOk (flagArg cl.args 0) = true →
          main P env cl =
            { trace := [Event.osOpen (flagArg cl.args 0), Event.log LogMsg.sameFilenames],
              outcome := Outcome.returned, parser := none })) ∧
    (∀ name, Event.osCreate name ∈ (main P env cl).trace →
        name = flagArg cl.args 1 ∧ flagArg cl.args 0 ≠ flagArg cl.args 1) ∧
    ((0 ≤ minClusterDuration cl ∧ minClusterDuration cl ≤ 30000) → 2 ≤ cl.args.length →
        flagArg cl.args 0 = "-" → flagArg cl.args 1 = "-" →
        (main P env cl).trace =
          [Event.useStdin, Event.newNonSeekableWriter Sink.stdout,
            Event.newDemuxerClient (Writer.NewNonSeekableWriter Sink.stdout)
              (minClusterDuration cl),
            Event.newParser typeInfo] ++ (readLoop P env.reads (loopInit env.parser0)).trace) := by
  refine ⟨?_, main_osCreate P env cl, ?_⟩
  · intro h2 hne heq
    have hin : flagArg cl.args 0 ≠ "-" := heq ▸ hne
    have hc := createOutput_same env (flagArg cl.args 0) hin
    have hcases : main P env cl =
          { trace := [Event.log LogMsg.invalidMinimumClusterDuration, Event.exit (-1)],
            outcome := Outcome.exited (-1), parser := none } ∨
        main P env cl =
          { trace := [Event.osOpen (flagArg cl.args 0), Event.log (LogMsg.error "Open input"),
              Event.exit (-1)],
            outcome := Outcome.exited (-1), parser := none } ∨
        ((0 ≤ minClusterDuration cl ∧ minClusterDuration cl ≤ 30000) ∧
          env.openOk (flagArg cl.args 0) = true ∧
          main P env cl =
            { trace := [Event.osOpen (flagArg cl.args 0), Event.log LogMsg.sameFilenames],
              outcome := Outcome.returned, parser := none }) := by
      rcases main_cases P env cl with h | h | h | h | h
      · exact Or.inl h.2
      · omega
      · right; left
        obtain ⟨_, _, ho, hm⟩ := h
        rw [hm]
        have hopen : env.openOk (flagArg cl.args 0) = false := by
          by_contra hcon
          simp [openInput, hin, hcon] at ho
        simp [openInput, hin, hopen]
      · right; right
        obtain ⟨hv, _, ho, evs, o, hco, hm⟩ := h
        rw [heq, hc] at hco
        simp only [Prod.mk.injEq, Sum.inr.injEq] at hco
        obtain ⟨rfl, rfl⟩ := hco
        have hopen : env.openOk (flagArg cl.args 0) = true := by
          by_contra hcon
          simp [openInput, hin, hcon] at ho
        refine ⟨hv, hopen, ?_⟩
        rw [hm]
        simp [openInput, hin, hopen]
      · obtain ⟨_, _, _, evs, w, hco, _⟩ := h
        rw [heq, hc] at hco
        simp at hco
    rcases hcases with h | h | h
    · rw [h]
      refine ⟨?_, rfl, rfl, by simp, ?_⟩
      · intro e he
        simp at he
        rcases he with he | he <;> subst he <;> simp [Event.isOutputCall, Event.isRemuxCall]
      · intro hv _
        exfalso
        have := main_trace_no_invalid_log P env cl hv
        rw [h] at this
        simp at this
    · have hopen : env.openOk (flagArg cl.args 0) = false := by
        by_contra hcon
        have hcon' : env.openOk (flagArg cl.args 0) = true := by simpa using hcon
        rcases main_cases P env cl with h' | h' | h' | h' | h'
        · rw [h'.2] at h; simp at h
        · omega
        · have := h'.2.2.1
          simp [openInput, hin, hcon'] at this
        · obtain ⟨_, _, _, evs, o, hco, hm⟩ := h'
          rw [heq, hc] at hco
          simp only [Prod.mk.injEq, Sum.inr.injEq] at hco
          obtain ⟨rfl, rfl⟩ := hco
          rw [hm] at h
          simp at h
        · obtain ⟨_, _, _, evs, w, hco, _⟩ := h'
          rw [heq, hc] at hco
          simp at hco
      rw [h]
      refine ⟨?_, rfl, rfl, by simp, ?_⟩
      · intro e he
        simp at he
        rcases he with he | he | he <;> subst he <;> simp [Event.isOutputCall, Event.isRemuxCall]
      · intro _ ho
        rw [hopen] at ho
        cases ho
    · obtain ⟨_, _, hm⟩ := h
      rw [hm]
      refine ⟨?_, rfl, rfl, by simp, fun _ _ => rfl⟩
      intro e he
      simp at he
      rcases he with he | he <;> subst he <;> simp [Event.isOutputCall, Event.isRemuxCall]
  · intro hv h2 h0 h1
    have hv' : ¬ (cl.cm.getD 250 < 0 ∨ cl.cm.getD 250 > 30000) := by
      unfold minClusterDuration at hv; omega
    have hn : ¬ cl.args.length < 2 := by omega
    simp [main, hv', hn, h0, h1, openInput, createOutput, minClusterDuration]

/-- C10, on a `ws://` name given twice: the input is opened, the message is
logged and `main` returns; nothing is parsed as a URL or dialed. -/
theorem same_name_guard_witness :
    main sampleParser sampleEnv ⟨some 100, ["ws://host/live", "ws://host/live"]⟩ =
      { trace := [Event.osOpen "ws://host/live", Event.log LogMsg.sameFilenames],
        outcome := Outcome.returned, parser := none } :=
  ((same_name_guard sampleParser sampleEnv ⟨some 100, ["ws://host/live", "ws://host/live"]⟩).1
    (by decide) (by decide) rfl).2.2.2.2 (by decide) rfl

/-! ## The cluster remuxer: lemmas -/

theorem reader_write (c : DemuxerClient) (ops : List WriterOp) :
    (c.write ops).reader = ops.foldl OutputReader.read c.reader := by
  simp [DemuxerClient.reader, DemuxerClient.write, List.foldl_append]

theorem absoluteBlocksOf_append (a b : List OutputCluster) :
    absoluteBlocksOf (a ++ b) = absoluteBlocksOf a ++ absoluteBlocksOf b := by
  simp [absoluteBlocksOf]

theorem openInv_congr (m : Int) (c d : DemuxerClient) (i j : InputReader)
    (hw : d.written = c.written) (hp : d.pending = c.pending) (hb : j.blocks = i.blocks)
    (h : OpenInv m c i) : OpenInv m d j := by
  have hr : d.reader = c.reader := by simp [DemuxerClient.reader, hw]
  unfold OpenInv at h ⊢
  rw [hr, hp, hb]
  exact h

/-- Writing a leaf that is neither a Timecode nor a SimpleBlock leaves the
clusters read back unchanged. -/
theorem openInv_passthrough (m : Int) (c d : DemuxerClient) (i j : InputReader)
    (id : ElementId) (v : Value) (hid : id = ElementId.IdInfo ∨ id = ElementId.IdTracks)
    (hw : d.written = c.written ++ [WriterOp.writeLeaf id v]) (hp : d.pending = c.pending)
    (hb : j.blocks = i.blocks) (h : OpenInv m c i) : OpenInv m d j := by
  have hread : ∀ r : OutputReader, r.read (WriterOp.writeLeaf id v) = r := by
    intro r
    rcases hid with rfl | rfl <;> rfl
  have hr : d.reader = c.reader := by
    simp [DemuxerClient.reader, hw, List.foldl_append, hread]
  unfold OpenInv at h ⊢
  rw [hr, hp, hb]
  exact h

theorem span_concat (base : Int) (blocks : List Block) (b : Block) :
    (OutputCluster.mk (some base) (blocks ++ [b])).span = some ((base + b.timecode) - base) := by
  simp [OutputCluster.span]

/-- The SimpleBlock rule keeps the invariant of the open Segment. -/
theorem openInv_appendBlock (m : Int) (c : DemuxerClient) (i : InputReader) (abs : Int)
    (payload : List Byte) (hm : c.minClusterDurationInMS = m) (h : OpenInv m c i) :
    OpenInv m (c.appendBlock abs payload) ⟨i.timecode, i.blocks ++ [(abs, payload)]⟩ := by
  obtain ⟨h1, h2, h3, h4⟩ := h
  cases hp : c.pending with
  | none =>
    have hcur := h2 hp
    rw [hcur] at h4
    simp only [Option.toList, List.append_nil] at h4
    by_cases hf : abs - abs ≥ c.minClusterDurationInMS
    · have hd : c.appendBlock abs payload =
          { ((c.write [WriterOp.openContainer ElementId.IdCluster,
              WriterOp.writeLeaf ElementId.IdTimecode (Value.uint abs)]).write
              [WriterOp.writeLeaf ElementId.IdSimpleBlock (Value.block ⟨abs - abs, payload⟩)]).write
              [WriterOp.closeContainer] with pending := none } := by
        simp only [DemuxerClient.appendBlock, hp, hf, if_true, if_false, List.nil_append]
      have hr : (c.appendBlock abs payload).reader =
          { closed := c.reader.closed ++ [⟨some abs, [⟨abs - abs, payload⟩]⟩], current := none } := by
        rw [hd]
        show DemuxerClient.reader (DemuxerClient.write _ _) = _
        simp [reader_write, OutputReader.read, hcur]
      refine ⟨?_, ?_, ?_, ?_⟩
      · intro oc hoc
        rw [hr] at hoc
        rcases List.mem_append.1 hoc with hoc | hoc
        · exact h1 oc hoc
        · simp at hoc
          subst hoc
          refine ⟨abs - abs, by simp [OutputCluster.span], ?_⟩
          rw [← hm]; exact hf
      · intro _; rw [hr]
      · intro pd hpd
        rw [hd] at hpd
        simp at hpd
      · rw [hr]
        simp only [Option.toList, List.append_nil, absoluteBlocksOf_append]
        rw [← h4]
        simp [absoluteBlocksOf, OutputCluster.absoluteBlocks]
    · have hd : c.appendBlock abs payload =
          { (c.write [WriterOp.openContainer ElementId.IdCluster,
              WriterOp.writeLeaf ElementId.IdTimecode (Value.uint abs)]).write
              [WriterOp.writeLeaf ElementId.IdSimpleBlock (Value.block ⟨abs - abs, payload⟩)]
            with pending := some ⟨abs, [⟨abs, payload⟩]⟩ } := by
        simp only [DemuxerClient.appendBlock, hp, hf, if_true, if_false, List.nil_append]
      have hr : (c.appendBlock abs payload).reader =
          { closed := c.reader.closed, current := some ⟨some abs, [⟨abs - abs, payload⟩]⟩ } := by
        rw [hd]
        show DemuxerClient.reader (DemuxerClient.write _ _) = _
        simp [reader_write, OutputReader.read, hcur]
      refine ⟨?_, ?_, ?_, ?_⟩
      · intro oc hoc
        rw [hr] at hoc
        exact h1 oc hoc
      · intro hn
        rw [hd] at hn
        simp at hn
      · intro pd hpd
        rw [hd] at hpd
        simp at hpd
        subst hpd
        exact ⟨_, by rw [hr]⟩
      · rw [hr]
        simp only [Option.toList, List.append_nil, absoluteBlocksOf_append]
        rw [← h4]
        simp [absoluteBlocksOf, OutputCluster.absoluteBlocks]
  | some pd =>
    obtain ⟨blocks, hcur⟩ := h3 pd hp
    rw [hcur] at h4
    by_cases hf : abs - pd.base ≥ c.minClusterDurationInMS
    · have hd : c.appendBlock abs payload =
          { (c.write [WriterOp.writeLeaf ElementId.IdSimpleBlock
                (Value.block ⟨abs - pd.base, payload⟩)]).write
              [WriterOp.closeContainer] with pending := none } := by
        simp only [DemuxerClient.appendBlock, hp, hf, if_true, if_false, List.nil_append]
      have hr : (c.appendBlock abs payload).reader =
          { closed := c.reader.closed ++ [⟨some pd.base, blocks ++ [⟨abs - pd.base, payload⟩]⟩],
            current := none } := by
        rw [hd]
        show DemuxerClient.reader (DemuxerClient.write _ _) = _
        simp [reader_write, OutputReader.read, hcur]
      refine ⟨?_, ?_, ?_, ?_⟩
      · intro oc hoc
        rw [hr] at hoc
        rcases List.mem_append.1 hoc with hoc | hoc
        · exact h1 oc hoc
        · simp at hoc
          subst hoc
          refine ⟨(pd.base + (abs - pd.base)) - pd.base, span_concat _ _ _, ?_⟩
          rw [← hm]
          have : pd.base + (abs - pd.base) - pd.base = abs - pd.base := by ring
          rw [this]; exact hf
      · intro _; rw [hr]
      · intro pd' hpd
        rw [hd] at hpd
        simp at hpd
      · rw [hr]
        simp only [Option.toList, List.append_nil, absoluteBlocksOf_append] at h4 ⊢
        rw [← h4]
        simp [absoluteBlocksOf, OutputCluster.absoluteBlocks]
    · have hd : c.appendBlock abs payload =
          { c.write [WriterOp.writeLeaf ElementId.IdSimpleBlock
                (Value.block ⟨abs - pd.base, payload⟩)]
            with pending := some ⟨pd.base, pd.blocks ++ [⟨abs, payload⟩]⟩ } := by
        simp only [DemuxerClient.appendBlock, hp, hf, if_true, if_false, List.nil_append]
      have hr : (c.appendBlock abs payload).reader =
          { closed := c.reader.closed,
            current := some ⟨some pd.base, blocks ++ [⟨abs - pd.base, payload⟩]⟩ } := by
        rw [hd]
        show DemuxerClient.reader (DemuxerClient.write _ _) = _
        simp [reader_write, OutputReader.read, hcur]
      refine ⟨?_, ?_, ?_, ?_⟩
      · intro oc hoc
        rw [hr] at hoc
        exact h1 oc hoc
      · intro hn
        rw [hd] at hn
        simp at hn
      · intro pd' hpd
        rw [hd] at hpd
        simp at hpd
        subst hpd
        exact ⟨_, by rw [hr]⟩
      · rw [hr]
        simp only [Option.toList, absoluteBlocksOf_append] at h4 ⊢
        rw [← h4]
        simp [absoluteBlocksOf, OutputCluster.absoluteBlocks]

theorem appendBlock_fields (c : DemuxerClient) (abs : Int) (payload : List Byte) :
    (c.appendBlock abs payload).failed = c.failed ∧
    (c.appendBlock abs payload).finished = c.finished ∧
    (c.appendBlock abs payload).minClusterDurationInMS = c.minClusterDurationInMS ∧
    (c.appendBlock abs payload).inSegment = c.inSegment ∧
    (c.appendBlock abs payload).inCluster = c.inCluster ∧
    (c.appendBlock abs payload).infoSeen = c.infoSeen ∧
    (c.appendBlock abs payload).tracksSeen = c.tracksSeen ∧
    (c.appendBlock abs payload).clusterTimecode = c.clusterTimecode := by
  unfold DemuxerClient.appendBlock
  cases c.pending <;> simp only <;> split_ifs <;> simp [DemuxerClient.write]

theorem read_close_none (r : OutputReader) (h : r.current = none) :
    r.read WriterOp.closeContainer = r := by
  simp [OutputReader.read, h]

theorem read_finish (r : OutputReader) : r.read WriterOp.finish = r := rfl

/-- Closing the open output Cluster, if any, settles the output. -/
theorem settle_close (m : Int) (c : DemuxerClient) (i : InputReader) (h : OpenInv m c i) :
    (∀ oc ∈ (c.reader.read WriterOp.closeContainer).closed.dropLast, SpanAtLeast m oc) ∧
      (c.reader.read WriterOp.closeContainer).current = none ∧
      absoluteBlocksOf (c.reader.read WriterOp.closeContainer).closed = i.blocks := by
  obtain ⟨h1, _, _, h4⟩ := h
  cases hc : c.reader.current with
  | none =>
    rw [read_close_none _ hc]
    rw [hc] at h4
    exact ⟨fun oc hoc => h1 oc (List.dropLast_subset _ hoc), hc, by simpa using h4⟩
  | some x =>
    have hr : c.reader.read WriterOp.closeContainer =
        { closed := c.reader.closed ++ [x], current := none } := by
      simp [OutputReader.read, hc]
    rw [hr]
    rw [hc] at h4
    exact ⟨by simpa using h1, rfl, by simpa using h4⟩

theorem settled_exit (m : Int) (c : DemuxerClient) (i j : InputReader)
    (hb : j.blocks = i.blocks) (h : OpenInv m c i) :
    SettledInv m (c.onExit ElementId.IdSegment) j := by
  have hr : (c.onExit ElementId.IdSegment).reader = c.reader.read WriterOp.closeContainer := by
    show DemuxerClient.reader (DemuxerClient.write _ _) = _
    simp [reader_write]
  unfold SettledInv
  rw [hr, hb]
  exact settle_close m c i h

theorem reader_onEndOfStream (c : DemuxerClient) :
    c.onEndOfStream.reader = c.reader.read WriterOp.closeContainer := by
  cases hp : c.pending with
  | none =>
    have hd : c.onEndOfStream =
        { c.write [WriterOp.closeContainer, WriterOp.finish] with finished := true } := by
      simp only [DemuxerClient.onEndOfStream, hp]
    rw [hd]
    show DemuxerClient.reader (DemuxerClient.write _ _) = _
    simp [reader_write, read_finish]
  | some pd =>
    have hd : c.onEndOfStream =
        { ({ c.write [WriterOp.closeContainer] with pending := none } : DemuxerClient).write
            [WriterOp.closeContainer, WriterOp.finish] with finished := true } := by
      simp only [DemuxerClient.onEndOfStream, hp]
    rw [hd]
    show DemuxerClient.reader (DemuxerClient.write _ _) = _
    rw [reader_write]
    have h1 : DemuxerClient.reader { c.write [WriterOp.closeContainer] with pending := none } =
        c.reader.read WriterOp.closeContainer := by
      show DemuxerClient.reader (DemuxerClient.write _ _) = _
      simp [reader_write]
    rw [h1]
    have h2 : (c.reader.read WriterOp.closeContainer).current = none := by
      cases hc : c.reader.current <;> simp [OutputReader.read, hc]
    simp [read_finish, read_close_none _ h2]

theorem onEndOfStream_fields (c : DemuxerClient) :
    c.onEndOfStream.failed = c.failed ∧ c.onEndOfStream.finished = true := by
  unfold DemuxerClient.onEndOfStream
  cases c.pending <;> simp [DemuxerClient.write]

theorem settled_endOfStream (m : Int) (c : DemuxerClient) (i j : InputReader)
    (hb : j.blocks = i.blocks) (h : OpenInv m c i) : SettledInv m c.onEndOfStream j := by
  unfold SettledInv
  rw [reader_onEndOfStream, hb]
  exact settle_close m c i h

theorem settled_again (m : Int) (c : DemuxerClient) (i j : InputReader)
    (hb : j.blocks = i.blocks) (h : SettledInv m c i) : SettledInv m c.onEndOfStream j := by
  unfold SettledInv at h ⊢
  rw [reader_onEndOfStream, read_close_none _ h.2.1, hb]
  exact h

theorem handle_live (c : DemuxerClient) (e : ElementEvent) (hf : c.failed = false)
    (hn : c.finished = false) :
    c.handle e = match e with
      | ElementEvent.enter id => c.onEnter id
      | ElementEvent.leaf id v => c.onLeaf id v
      | ElementEvent.exit id => c.onExit id
      | ElementEvent.endOfStream => c.onEndOfStream := by
  simp [DemuxerClient.handle, hf, hn]

theorem openInv_new (m : Int) :
    OpenInv m (DemuxerClient.onEnter (NewDemuxerClient m) ElementId.IdSegment) ⟨none, []⟩ := by
  refine ⟨?_, ?_, ?_, ?_⟩
  · intro oc hoc
    simp [DemuxerClient.reader, DemuxerClient.onEnter, DemuxerClient.write, NewDemuxerClient,
      OutputReader.read] at hoc
  · intro _; rfl
  · intro pd hpd
    simp [DemuxerClient.onEnter, DemuxerClient.write, NewDemuxerClient] at hpd
  · rfl

/-- One event of a valid stream keeps the relation between the phase, the
remuxer and the input read. -/
theorem remuxInv_step (m : Int) (p q : Phase) (c : DemuxerClient) (i : InputReader)
    (e : ElementEvent) (hinv : RemuxInv m p c i) (hstep : p.step e = some q) :
    RemuxInv m q (c.handle e) (i.read e) := by
  unfold Phase.step at hstep
  split at hstep
  case h_15 => cases hstep
  all_goals (injection hstep with hstep; subst hstep)
  case h_1 v =>
    obtain ⟨rfl, rfl⟩ := hinv
    rw [handle_live _ _ rfl rfl]
    exact ⟨by cases v <;> rfl, by cases v <;> rfl⟩
  case h_2 =>
    obtain ⟨rfl, rfl⟩ := hinv
    rw [handle_live _ _ rfl rfl]
    exact ⟨rfl, rfl, rfl, rfl, rfl, rfl, openInv_new m⟩
  case h_3 tr v =>
    obtain ⟨h1, h2, h3, h4, h5, h6, h7⟩ := hinv
    rw [handle_live _ _ h1 h2]
    have hd : c.onLeaf ElementId.IdInfo v =
        { c.write [WriterOp.writeLeaf ElementId.IdInfo v] with infoSeen := true } := by
      simp [DemuxerClient.onLeaf, h5]
    simp only [hd]
    refine ⟨h1, h2, h3, h4, rfl, h6, ?_⟩
    exact openInv_passthrough m c _ i _ ElementId.IdInfo v (Or.inl rfl) rfl rfl
      (by cases v <;> rfl) h7
  case h_4 inf v =>
    obtain ⟨h1, h2, h3, h4, h5, h6, h7⟩ := hinv
    rw [handle_live _ _ h1 h2]
    have hd : c.onLeaf ElementId.IdTracks v =
        { c.write [WriterOp.writeLeaf ElementId.IdTracks v] with tracksSeen := true } := by
      simp [DemuxerClient.onLeaf, h6]
    simp only [hd]
    refine ⟨h1, h2, h3, h4, h5, rfl, ?_⟩
    exact openInv_passthrough m c _ i _ ElementId.IdTracks v (Or.inr rfl) rfl rfl
      (by cases v <;> rfl) h7
  case h_5 inf tr raw v =>
    obtain ⟨h1, h2, h3, h4, h5, h6, h7⟩ := hinv
    rw [handle_live _ _ h1 h2]
    have hd : c.onLeaf (ElementId.unregistered raw) v = c := by cases v <;> rfl
    have hi : i.read (ElementEvent.leaf (ElementId.unregistered raw) v) = i := by
      cases v <;> rfl
    simp only [hd, hi]
    exact ⟨h1, h2, h3, h4, h5, h6, h7⟩
  case h_6 inf tr =>
    obtain ⟨h1, h2, h3, h4, h5, h6, h7⟩ := hinv
    rw [handle_live _ _ h1 h2]
    have hd : c.onEnter ElementId.IdCluster =
        { c with inCluster := true, clusterTimecode := none } := by
      simp [DemuxerClient.onEnter, h4]
    simp only [hd]
    exact ⟨h1, h2, h3, h4, rfl, h5, h6, rfl, rfl, openInv_congr m c _ i _ rfl rfl rfl h7⟩
  case h_7 inf tr =>
    obtain ⟨h1, h2, h3, h4, h5, h6, h7⟩ := hinv
    rw [handle_live _ _ h1 h2]
    exact ⟨h1, h2, settled_exit m c i _ rfl h7⟩
  case h_8 inf tr =>
    obtain ⟨h1, h2, h3, h4, h5, h6, h7⟩ := hinv
    rw [handle_live _ _ h1 h2]
    exact ⟨by rw [(onEndOfStream_fields c).1, h1], (onEndOfStream_fields c).2,
      settled_endOfStream m c i _ rfl h7⟩
  case h_9 inf tr tc t =>
    obtain ⟨h1, h2, h3, h4, h4', h5, h6, h8, h9, h7⟩ := hinv
    rw [handle_live _ _ h1 h2]
    have hd : c.onLeaf ElementId.IdTimecode (Value.uint t) =
        { c with clusterTimecode := some t } := by
      simp [DemuxerClient.onLeaf, h4']
    simp only [hd]
    exact ⟨h1, h2, h3, h4, h4', h5, h6, rfl, rfl, openInv_congr m c _ i _ rfl rfl rfl h7⟩
  case h_10 inf tr t b =>
    obtain ⟨h1, h2, h3, h4, h4', h5, h6, h8, h9, h7⟩ := hinv
    rw [handle_live _ _ h1 h2]
    have hd : c.onLeaf ElementId.IdSimpleBlock (Value.block b) =
        c.appendBlock (t + b.timecode) b.payload := by
      simp [DemuxerClient.onLeaf, h4', h8]
    have hi : i.read (ElementEvent.leaf ElementId.IdSimpleBlock (Value.block b)) =
        ⟨i.timecode, i.blocks ++ [(t + b.timecode, b.payload)]⟩ := by
      simp [InputReader.read, h9]
    simp only [hd, hi]
    obtain ⟨f1, f2, f3, f4, f5, f6, f7, f8⟩ := appendBlock_fields c (t + b.timecode) b.payload
    exact ⟨by rw [f1, h1], by rw [f2, h2], by rw [f3, h3], by rw [f4, h4], by rw [f5, h4'],
      by rw [f6, h5], by rw [f7, h6], by rw [f8, h8], h9,
      openInv_appendBlock m c i _ _ h3 h7⟩
  case h_11 inf tr tc raw v =>
    obtain ⟨h1, h2, h3, h4, h4', h5, h6, h8, h9, h7⟩ := hinv
    rw [handle_live _ _ h1 h2]
    have hd : c.onLeaf (ElementId.unregistered raw) v = c := by cases v <;> rfl
    have hi : i.read (ElementEvent.leaf (ElementId.unregistered raw) v) = i := by
      cases v <;> rfl
    simp only [hd, hi]
    exact ⟨h1, h2, h3, h4, h4', h5, h6, h8, h9, h7⟩
  case h_12 inf tr tc =>
    obtain ⟨h1, h2, h3, h4, h4', h5, h6, h8, h9, h7⟩ := hinv
    rw [handle_live _ _ h1 h2]
    exact ⟨h1, h2, h3, h4, h5, h6, openInv_congr m c _ i _ rfl rfl rfl h7⟩
  case h_13 inf tr tc =>
    obtain ⟨h1, h2, h3, h4, h4', h5, h6, h8, h9, h7⟩ := hinv
    rw [handle_live _ _ h1 h2]
    exact ⟨by rw [(onEndOfStream_fields c).1, h1], (onEndOfStream_fields c).2,
      settled_endOfStream m c i _ rfl h7⟩
  case h_14 =>
    obtain ⟨h1, h2, h7⟩ := hinv
    rw [handle_live _ _ h1 h2]
    exact ⟨by rw [(onEndOfStream_fields c).1, h1], (onEndOfStream_fields c).2,
      settled_again m c i _ rfl h7⟩

theorem remuxInv_run (m : Int) (events : List ElementEvent) (p q : Phase) (c : DemuxerClient)
    (i : InputReader) (hinv : RemuxInv m p c i) (hrun : p.run events = some q) :
    RemuxInv m q (events.foldl DemuxerClient.handle c) (events.foldl InputReader.read i) := by
  induction events generalizing p c i with
  | nil =>
    simp only [Phase.run, Option.some.injEq] at hrun
    subst hrun
    exact hinv
  | cons e es ih =>
    simp only [Phase.run] at hrun
    cases hs : p.step e with
    | none => simp [hs] at hrun
    | some r =>
      simp only [hs] at hrun
      exact ih r (c.handle e) (i.read e) (remuxInv_step m p r c i e hinv hs) hrun

theorem remux_settled (m : Int) (events : List ElementEvent) (hv : validStream events) :
    (remux m events).failed = false ∧ (remux m events).finished = true ∧
      SettledInv m (remux m events) (events.foldl InputReader.read ⟨none, []⟩) :=
  remuxInv_run m events Phase.start Phase.ended (NewDemuxerClient m) ⟨none, []⟩ ⟨rfl, rfl⟩ hv

/-! ## The cluster remuxer: claims -/

/-- C7: for the remuxer modelled from the specification, on every valid
input stream and for every configured minimum `m` (in particular every `m`
from 0 to 30000), the run is not aborted and reaches `finish`, and every
output Cluster except the last one has a span, the timecode of its last
block minus its base timecode, of at least `m`. -/
theorem minimum_duration_lower_bound (m : Int) (events : List ElementEvent)
    (hv : validStream events) :
    (remux m events).failed = false ∧ (remux m events).finished = true ∧
      ∀ oc ∈ (outputClusters (remux m events).written).dropLast,
        ∃ sp, oc.span = some sp ∧ m ≤ sp := by
  obtain ⟨h1, h2, h3, h4, _⟩ := remux_settled m events hv
  refine ⟨h1, h2, ?_⟩
  have hc : outputClusters (remux m events).written = (remux m events).reader.closed := by
    show (remux m events).reader.closed ++ (remux m events).reader.current.toList = _
    rw [h4]; simp
  rw [hc]
  exact h3

/-- C7, on three blocks at 0, 10 and 20 ms with a minimum of 5 ms: the
output has two Clusters, the first of span 10, and only the last one, of
span 0, is below the minimum. -/
theorem minimum_duration_lower_bound_witness :
    outputClusters (remux 5 sampleStream).written =
        [⟨some 0, [⟨0, [10]⟩, ⟨10, [11]⟩]⟩, ⟨some 20, [⟨0, [12]⟩]⟩] ∧
      ∀ oc ∈ (outputClusters (remux 5 sampleStream).written).dropLast,
        ∃ sp, oc.span = some sp ∧ (5 : Int) ≤ sp :=
  ⟨by decide, (minimum_duration_lower_bound 5 sampleStream (by decide)).2.2⟩

/-- C9: for the remuxer modelled from the specification, on every valid
input stream and for every configured minimum, the (absolute timecode,
payload) pairs of the SimpleBlocks written are those of the input, in the
same order; hence the two multisets are equal: no block is dropped or
duplicated. -/
theorem block_conservation (m : Int) (events : List ElementEvent) (hv : validStream events) :
    outputBlocks (remux m events).written = inputBlocks events ∧
      (Multiset.ofList (outputBlocks (remux m events).written) : Multiset (Int × List Byte)) =
        Multiset.ofList (inputBlocks events) := by
  obtain ⟨_, _, _, h4, h5⟩ := remux_settled m events hv
  have hc : outputClusters (remux m events).written = (remux m events).reader.closed := by
    show (remux m events).reader.closed ++ (remux m events).reader.current.toList = _
    rw [h4]; simp
  have : outputBlocks (remux m events).written = inputBlocks events := by
    show absoluteBlocksOf (outputClusters (remux m events).written) = _
    rw [hc, h5]; rfl
  exact ⟨this, by rw [this]⟩

/-- C9, on three blocks at 0, 10 and 20 ms regrouped with a minimum of
5 ms: the blocks written are the three blocks read. -/
theorem block_conservation_witness :
    outputBlocks (remux 5 sampleStream).written = [(0, [10]), (10, [11]), (20, [12])] ∧
      outputBlocks (remux 5 sampleStream).written = inputBlocks sampleStream :=
  ⟨by decide, (block_conservation 5 sampleStream (by decide)).1⟩

/-! ### The scenarios of the specification -/

/-- With a minimum of 0 ms, three blocks at 0, 10 and 20 ms in one input
Cluster give three output Clusters of one block each. -/
theorem scenario_minimum_zero :
    outputClusters (remux 0 sampleStream).written =
      [⟨some 0, [⟨0, [10]⟩]⟩, ⟨some 10, [⟨0, [11]⟩]⟩, ⟨some 20, [⟨0, [12]⟩]⟩] := by
  decide

/-- With a minimum of 15 ms, the same three blocks give one output Cluster
holding all of them, flushed by the block at 20 ms. -/
theorem scenario_minimum_fifteen :
    outputClusters (remux 15 sampleStream).written =
      [⟨some 0, [⟨0, [10]⟩, ⟨10, [11]⟩, ⟨20, [12]⟩]⟩] := by
  decide

/-! ## The incremental parser: lemmas -/

theorem drop_extend (buf more : List Byte) (k : Nat) (hk : k ≤ buf.length) :
    (buf ++ more).drop k = buf.drop k ++ more :=
  List.drop_append_of_le_length hk

theorem take_drop_extend (buf more : List Byte) (k n : Nat) (hk : k + n ≤ buf.length) :
    ((buf ++ more).drop k).take n = (buf.drop k).take n := by
  rw [drop_extend buf more k (by omega)]
  exact List.take_append_of_le_length (by simp; omega)

/-- The part of a step after the header gives the same result when more
bytes follow, unless it was waiting for bytes. -/
theorem element_extend {η : Type} (cfg : ParserConfig) (H : Handler η) (s : EbmlParser η)
    (id : ElementId) (size : Option Nat) (header : Nat) (more : List Byte)
    (hh : header ≤ s.buffer.length) :
    (∀ t, s.element cfg H id size header = StepResult.advanced t →
        (s.extend more).element cfg H id size header = StepResult.advanced (t.extend more) ∧
          t.buffer.length + header ≤ s.buffer.length ∧ t.failed = false) ∧
    (∀ h, s.element cfg H id size header = StepResult.failed h →
        (s.extend more).element cfg H id size header = StepResult.failed h) := by
  have hd : (s.buffer ++ more).drop header = s.buffer.drop header ++ more :=
    drop_extend _ _ _ hh
  cases size with
  | none =>
    cases hk : cfg.kindOf id <;>
      simp only [EbmlParser.element, EbmlParser.extend, hk, hd] <;>
      refine ⟨fun t ht => ?_, fun h hf => ?_⟩
    all_goals first
      | (split_ifs at ht ⊢ <;>
          (injection ht with ht
           subst ht
           exact ⟨rfl, by simp only [List.length_drop]; omega, rfl⟩))
      | (split_ifs at hf ⊢ <;> exact hf)
  | some sz =>
    cases hk : cfg.kindOf id
    case TypeList =>
      simp only [EbmlParser.element, EbmlParser.extend, hk, hd]
      refine ⟨fun t ht => ?_, fun h hf => ?_⟩
      · split_ifs at ht ⊢
        injection ht with ht
        subst ht
        exact ⟨rfl, by simp only [List.length_drop]; omega, rfl⟩
      · split_ifs at hf ⊢ <;> exact hf
    all_goals
      simp only [EbmlParser.element, EbmlParser.extend, hk]
      refine ⟨fun t ht => ?_, fun h hf => ?_⟩
      · split_ifs at ht with h1 h2 h3 h4 h5
        have hlen : header + sz ≤ s.buffer.length := by omega
        have h3' : ¬ (s.buffer ++ more).length < header + sz := by
          simp only [List.length_append]; omega
        injection ht with ht
        subst ht
        rw [take_drop_extend _ more _ _ hlen, drop_extend _ more _ hlen,
          if_neg h1, if_neg h2, if_neg h3', if_neg h4, if_neg h5]
        exact ⟨rfl, by simp only [List.length_drop]; omega, rfl⟩
      · split_ifs at hf with h1 h2 h3 h4 h5
        · rw [if_pos h1]; exact hf
        · rw [if_neg h1, if_pos h2]; exact hf
        · have hlen : header + sz ≤ s.buffer.length := by omega
          have h3' : ¬ (s.buffer ++ more).length < header + sz := by
            simp only [List.length_append]; omega
          rw [take_drop_extend _ more _ _ hlen, if_neg h1, if_neg h2, if_neg h3', if_pos h4]
          exact hf
        · have hlen : header + sz ≤ s.buffer.length := by omega
          have h3' : ¬ (s.buffer ++ more).length < header + sz := by
            simp only [List.length_append]; omega
          rw [take_drop_extend _ more _ _ hlen, if_neg h1, if_neg h2, if_neg h3', if_neg h4,
            if_pos h5]
          exact hf

/-- A decode step gives the same result when more bytes follow, unless it
was waiting for bytes; and a step that advances uses up at least one
byte. -/
theorem step_extend {η : Type} (cfg : ParserConfig) (H : Handler η)
    (hF : cfg.framing.Stable) (s : EbmlParser η) (more : List Byte) :
    (∀ t, s.step cfg H = StepResult.advanced t →
        (s.extend more).step cfg H = StepResult.advanced (t.extend more) ∧
          t.buffer.length < s.buffer.length ∧ t.failed = false) ∧
    (∀ h, s.step cfg H = StepResult.failed h →
        (s.extend more).step cfg H = StepResult.failed h) := by
  obtain ⟨⟨_, hid1, hid2, hid3⟩, ⟨_, hsz1, hsz2, hsz3⟩⟩ := hF
  have hb : (s.extend more).buffer = s.buffer ++ more := rfl
  have hh : (s.extend more).handler = s.handler := rfl
  unfold EbmlParser.step
  rw [hb, hh]
  cases hid : cfg.framing.readId s.buffer with
  | needMore => exact ⟨fun t ht => (by cases ht), fun h hf => (by cases hf)⟩
  | invalid =>
    rw [hid3 _ more hid]
    exact ⟨fun t ht => (by cases ht), fun h hf => hf⟩
  | ok id n1 =>
    obtain ⟨hn1, hn1'⟩ := hid1 _ _ _ hid
    rw [hid2 _ _ _ more hid]
    simp only
    rw [drop_extend _ more _ hn1']
    cases hsz : cfg.framing.readSize (s.buffer.drop n1) with
    | needMore => exact ⟨fun t ht => (by cases ht), fun h hf => (by cases hf)⟩
    | invalid =>
      rw [hsz3 _ more hsz]
      exact ⟨fun t ht => (by cases ht), fun h hf => hf⟩
    | ok size n2 =>
      obtain ⟨_, hn2'⟩ := hsz1 _ _ _ hsz
      rw [hsz2 _ _ _ more hsz]
      simp only
      have hlen : n1 + n2 ≤ s.buffer.length := by
        simp only [List.length_drop] at hn2'; omega
      obtain ⟨e1, e2⟩ := element_extend cfg H s id size (n1 + n2) more hlen
      refine ⟨fun t ht => ?_, e2⟩
      obtain ⟨a1, a2, a3⟩ := e1 t ht
      exact ⟨a1, by omega, a3⟩

theorem drain_stable {η : Type} (cfg : ParserConfig) (H : Handler η)
    (hF : cfg.framing.Stable) (n k : Nat) (s : EbmlParser η)
    (hn : s.buffer.length < n) (hk : s.buffer.length < k) :
    EbmlParser.drain cfg H n s = EbmlParser.drain cfg H k s := by
  induction n generalizing s k with
  | zero => omega
  | succ n ih =>
    cases k with
    | zero => omega
    | succ k =>
      simp only [EbmlParser.drain]
      cases hs : s.step cfg H with
      | needMore => rfl
      | failed h => rfl
      | advanced t =>
        have := ((step_extend cfg H hF s []).1 t hs).2.1
        exact ih k t (by omega) (by omega)

/-- With more fuel than bytes, decoding stops only at a failure or where
more bytes are needed. -/
theorem drain_waits {η : Type} (cfg : ParserConfig) (H : Handler η)
    (hF : cfg.framing.Stable) (n : Nat) (s : EbmlParser η) (hn : s.buffer.length < n)
    (hf : (EbmlParser.drain cfg H n s).failed = false) :
    (EbmlParser.drain cfg H n s).step cfg H = StepResult.needMore := by
  induction n generalizing s with
  | zero => omega
  | succ n ih =>
    simp only [EbmlParser.drain] at hf ⊢
    cases hs : s.step cfg H with
    | needMore => simp only [hs]
    | failed h => simp [hs] at hf
    | advanced t =>
      simp only [hs] at hf ⊢
      have := ((step_extend cfg H hF s []).1 t hs).2.1
      exact ih t (by omega) hf

/-- Decoding a buffer and then the bytes that follow is decoding the longer
buffer. -/
theorem drain_extend {η : Type} (cfg : ParserConfig) (H : Handler η)
    (hF : cfg.framing.Stable) (more : List Byte) (n N : Nat) (s : EbmlParser η)
    (hs : s.failed = false) (hn : s.buffer.length < n)
    (hN : s.buffer.length + more.length < N) :
    ((EbmlParser.drain cfg H n s).failed = false →
        EbmlParser.drain cfg H N (s.extend more) =
          EbmlParser.drain cfg H ((EbmlParser.drain cfg H n s).buffer.length + more.length + 1)
            ((EbmlParser.drain cfg H n s).extend more)) ∧
    ((EbmlParser.drain cfg H n s).failed = true →
        EbmlParser.drain cfg H N (s.extend more) = (EbmlParser.drain cfg H n s).extend more) := by
  induction n generalizing s N with
  | zero => omega
  | succ n ih =>
    cases N with
    | zero => omega
    | succ N =>
      cases hst : s.step cfg H with
      | needMore =>
        have hd : EbmlParser.drain cfg H (n + 1) s = s := by simp [EbmlParser.drain, hst]
        rw [hd]
        refine ⟨fun _ => ?_, fun h => ?_⟩
        · exact drain_stable cfg H hF _ _ _ (by simp [EbmlParser.extend]; omega)
            (by simp [EbmlParser.extend])
        · rw [hs] at h; cases h
      | failed h =>
        have hd : EbmlParser.drain cfg H (n + 1) s = { s with handler := h, failed := true } := by
          simp [EbmlParser.drain, hst]
        rw [hd]
        refine ⟨fun hc => (by cases hc), fun _ => ?_⟩
        have := (step_extend cfg H hF s more).2 h hst
        simp only [EbmlParser.drain, this]
        rfl
      | advanced t =>
        obtain ⟨h1, h2, h3⟩ := (step_extend cfg H hF s more).1 t hst
        have hd : EbmlParser.drain cfg H (n + 1) s = EbmlParser.drain cfg H n t := by
          simp [EbmlParser.drain, hst]
        have hD : EbmlParser.drain cfg H (N + 1) (s.extend more) =
            EbmlParser.drain cfg H N (t.extend more) := by
          simp [EbmlParser.drain, h1]
        rw [hd, hD]
        exact ih N t h3 (by omega) (by omega)

theorem agree_refl {η : Type} (s : EbmlParser η) : s.Agree s := ⟨rfl, rfl, rfl, fun _ => rfl⟩

theorem agree_trans {η : Type} (a b c : EbmlParser η) (h1 : a.Agree b) (h2 : b.Agree c) :
    a.Agree c :=
  ⟨h1.1.trans h2.1, h1.2.1.trans h2.2.1, h1.2.2.1.trans h2.2.2.1,
    fun h => (h1.2.2.2 h).trans (h2.2.2.2 (h1.2.2.1 ▸ h))⟩

theorem agree_eq {η : Type} (a b : EbmlParser η) (h : a.Agree b) (hf : a.failed = false) :
    a = b := by
  obtain ⟨h1, h2, h3, h4⟩ := h
  cases a
  cases b
  simp only at h1 h2 h3 h4 hf
  simp [h1, h2, ← h3, h4 hf]

theorem append_failed {η : Type} (cfg : ParserConfig) (H : Handler η) (s : EbmlParser η)
    (chunk : List Byte) (h : s.failed = true) : s.Append cfg H chunk = (s, false) := by
  simp [EbmlParser.Append, h]

theorem append_live {η : Type} (cfg : ParserConfig) (H : Handler η) (s : EbmlParser η)
    (chunk : List Byte) (h : s.failed = false) :
    (s.Append cfg H chunk).1 =
      EbmlParser.drain cfg H (s.buffer.length + chunk.length + 1) (s.extend chunk) := by
  simp [EbmlParser.Append, h, EbmlParser.extend]

/-- Appending `a` and then `b` agrees with appending `a ++ b`. -/
theorem append_append {η : Type} (cfg : ParserConfig) (H : Handler η)
    (hF : cfg.framing.Stable) (s : EbmlParser η) (a b : List Byte) (hs : s.failed = false) :
    ((s.Append cfg H a).1.Append cfg H b).1.Agree (s.Append cfg H (a ++ b)).1 := by
  have hok : (s.extend a).failed = false := hs
  have hex : s.extend (a ++ b) = (s.extend a).extend b := by
    simp [EbmlParser.extend, List.append_assoc]
  have hlen : (s.extend a).buffer.length = s.buffer.length + a.length := by
    simp [EbmlParser.extend]
  obtain ⟨d1, d2⟩ := drain_extend cfg H hF b (s.buffer.length + a.length + 1)
    (s.buffer.length + (a ++ b).length + 1) (s.extend a) hok (by omega)
    (by simp only [hlen, List.length_append]; omega)
  rw [append_live cfg H s (a ++ b) hs, hex, append_live cfg H s a hs]
  cases hd : (EbmlParser.drain cfg H (s.buffer.length + a.length + 1) (s.extend a)).failed with
  | false =>
    rw [append_live cfg H _ b hd, d1 hd]
    exact agree_refl _
  | true =>
    rw [append_failed cfg H _ b hd, d2 hd]
    exact ⟨rfl, rfl, rfl, fun h => by rw [hd] at h; cases h⟩

theorem feed_failed {η : Type} (cfg : ParserConfig) (H : Handler η) (s : EbmlParser η)
    (chunks : List (List Byte)) (h : s.failed = true) : s.feed cfg H chunks = s := by
  induction chunks with
  | nil => rfl
  | cons c cs ih =>
    simp only [EbmlParser.feed, List.foldl_cons, append_failed cfg H s c h]
    exact ih

/-- Feeding chunks one at a time agrees with appending their
concatenation, from any parser that is waiting for bytes. -/
theorem feed_agree {η : Type} (cfg : ParserConfig) (H : Handler η)
    (hF : cfg.framing.Stable) (chunks : List (List Byte)) (s : EbmlParser η)
    (hs : s.failed = false) (hw : s.step cfg H = StepResult.needMore) :
    (s.feed cfg H chunks).Agree (s.Append cfg H chunks.flatten).1 := by
  induction chunks generalizing s with
  | nil =>
    have : (s.Append cfg H []).1 = s := by
      rw [append_live cfg H s [] hs]
      have he : s.extend [] = s := by simp [EbmlParser.extend]
      simp [he, EbmlParser.drain, hw]
    simp only [List.flatten_nil, this]
    exact agree_refl _
  | cons c cs ih =>
    have hstep : s.feed cfg H (c :: cs) = (s.Append cfg H c).1.feed cfg H cs := rfl
    rw [hstep, List.flatten_cons]
    have h2 := append_append cfg H hF s c cs.flatten hs
    cases hd : (s.Append cfg H c).1.failed with
    | true =>
      rw [feed_failed cfg H _ cs hd]
      rw [append_failed cfg H _ cs.flatten hd] at h2
      exact h2
    | false =>
      have hwait : (s.Append cfg H c).1.step cfg H = StepResult.needMore := by
        rw [append_live cfg H s c hs] at hd ⊢
        exact drain_waits cfg H hF _ _ (by simp [EbmlParser.extend]) hd
      exact agree_trans _ _ _ (ih _ hd hwait) h2

theorem endOfData_agree {η : Type} (H : Handler η) (a b : EbmlParser η) (h : a.Agree b) :
    (EbmlParser.EndOfData H a).Agree (EbmlParser.EndOfData H b) := by
  cases hf : a.failed with
  | false =>
    rw [agree_eq a b h hf]
    exact agree_refl _
  | true =>
    have hb : b.failed = true := by rw [← h.2.2.1, hf]
    simp only [EbmlParser.EndOfData, hf, hb, if_true]
    exact h

theorem newParser_waits {η : Type} (cfg : ParserConfig) (H : Handler η)
    (hF : cfg.framing.Stable) (h0 : η) :
    (NewParser h0).step cfg H = StepResult.needMore := by
  simp [EbmlParser.step, NewParser, hF.1.1]

/-! ### The sample framing is self-delimiting -/

theorem readVint_selfDelimiting (k : Nat) : SelfDelimiting (readVint k) := by
  refine ⟨rfl, ?_, ?_, ?_⟩
  · intro buf v n h
    cases buf with
    | nil => simp [readVint] at h
    | cons b rest =>
      simp only [readVint] at h
      split_ifs at h with h1 h2
      injection h with _ hn
      subst hn
      exact ⟨by omega, by omega⟩
  · intro buf v n more h
    cases buf with
    | nil => simp [readVint] at h
    | cons b rest =>
      simp only [readVint] at h
      split_ifs at h with h1 h2
      injection h with hv hn
      subst hn
      have h2' : ¬ (b :: rest ++ more).length < vintLength b := by
        simp only [List.length_append]; omega
      have h3 : (b :: rest ++ more).take (vintLength b) = (b :: rest).take (vintLength b) :=
        List.take_append_of_le_length (by omega)
      simp only [List.cons_append, readVint, h1, if_false]
      rw [← List.cons_append, if_neg h2', h3, hv]
  · intro buf more h
    cases buf with
    | nil => simp [readVint] at h
    | cons b rest =>
      simp only [readVint] at h
      split_ifs at h with h1
      simp [readVint, h1]

theorem map_selfDelimiting {α β : Type} (f : α → β) (read : List Byte → Decoded α)
    (h : SelfDelimiting read) : SelfDelimiting (fun buf => (read buf).map f) := by
  obtain ⟨h0, h1, h2, h3⟩ := h
  refine ⟨by simp [h0, Decoded.map], ?_, ?_, ?_⟩
  · intro buf v n hb
    cases hr : read buf with
    | needMore => simp [hr, Decoded.map] at hb
    | invalid => simp [hr, Decoded.map] at hb
    | ok w k =>
      simp only [hr, Decoded.map, Decoded.ok.injEq] at hb
      obtain ⟨_, rfl⟩ := hb
      exact h1 _ _ _ hr
  · intro buf v n more hb
    cases hr : read buf with
    | needMore => simp [hr, Decoded.map] at hb
    | invalid => simp [hr, Decoded.map] at hb
    | ok w k =>
      simp only [hr, Decoded.map, Decoded.ok.injEq] at hb
      obtain ⟨rfl, rfl⟩ := hb
      simp [h2 _ _ _ more hr, Decoded.map]
  · intro buf more hb
    cases hr : read buf with
    | needMore => simp [hr, Decoded.map] at hb
    | invalid => simp [h3 _ more hr, Decoded.map]
    | ok w k => simp [hr, Decoded.map] at hb

theorem ebmlFraming_stable : ebmlFraming.Stable :=
  ⟨map_selfDelimiting idOfBytes (readVint 4) (readVint_selfDelimiting 4),
    map_selfDelimiting sizeOfBytes (readVint 8) (readVint_selfDelimiting 8)⟩

/-! ## The incremental parser: claims -/

/-- C8: for the parser modelled from the specification, with any handler
and any self-delimiting encoding of identifiers and sizes, and for every
input cut into consecutive chunks in any way: feeding the chunks one
`Append` at a time leaves the same handler state (the same decoded events
were delivered, and the same output produced by the handler), the same
stack of open elements and the same failure status as one `Append` of the
whole input; unless parsing failed the two parsers are equal; and
`EndOfData` then yields the same handler state and failure status.  The
same holds for single-byte chunks.  The fuel of `Append` is enough: with any
larger amount the result is the same. -/
theorem chunk_boundary_invariance {η : Type} (cfg : ParserConfig) (H : Handler η)
    (hF : cfg.framing.Stable) (h0 : η) (chunks : List (List Byte)) :
    ((NewParser h0).feed cfg H chunks).handler =
        ((NewParser h0).Append cfg H chunks.flatten).1.handler ∧
    ((NewParser h0).feed cfg H chunks).stack =
        ((NewParser h0).Append cfg H chunks.flatten).1.stack ∧
    ((NewParser h0).feed cfg H chunks).failed =
        ((NewParser h0).Append cfg H chunks.flatten).1.failed ∧
    (((NewParser h0).feed cfg H chunks).failed = false →
        (NewParser h0).feed cfg H chunks = ((NewParser h0).Append cfg H chunks.flatten).1) ∧
    (EbmlParser.EndOfData H ((NewParser h0).feed cfg H chunks)).handler =
        (EbmlParser.EndOfData H ((NewParser h0).Append cfg H chunks.flatten).1).handler ∧
    (EbmlParser.EndOfData H ((NewParser h0).feed cfg H chunks)).failed =
        (EbmlParser.EndOfData H ((NewParser h0).Append cfg H chunks.flatten).1).failed ∧
    (∀ bytes : List Byte,
        ((NewParser h0).feed cfg H (bytes.map (fun b => [b]))).handler =
          ((NewParser h0).Append cfg H bytes).1.handler) ∧
    (∀ n, chunks.flatten.length < n →
        EbmlParser.drain cfg H n ((NewParser h0).extend chunks.flatten) =
          ((NewParser h0).Append cfg H chunks.flatten).1) := by
  have key : ∀ cs : List (List Byte),
      ((NewParser h0).feed cfg H cs).Agree ((NewParser h0).Append cfg H cs.flatten).1 :=
    fun cs => feed_agree cfg H hF cs (NewParser h0) rfl (newParser_waits cfg H hF h0)
  have hk := key chunks
  have he := endOfData_agree H _ _ hk
  refine ⟨hk.1, hk.2.1, hk.2.2.1, fun hf => agree_eq _ _ hk hf, he.1, he.2.2.1, ?_, ?_⟩
  rotate_left
  · intro n hn
    rw [append_live cfg H (NewParser h0) chunks.flatten rfl]
    exact drain_stable cfg H hF _ _ _ (by simpa [EbmlParser.extend, NewParser] using hn)
      (by simp [EbmlParser.extend, NewParser])
  intro bytes
  have hflat : ∀ l : List Byte, (l.map (fun b => [b])).flatten = l := by
    intro l
    induction l with
    | nil => rfl
    | cons b bs ih => simp [ih]
  have hb := (key (bytes.map (fun b => [b]))).1
  rw [hflat] at hb
  exact hb

/-- C8, on the sample stream of 35 bytes cut after 3, 7 and 18 bytes (inside
the Segment identifier, inside the Info header and inside a Cluster): the
events decoded are those of a single `Append`, the first Cluster being
closed exactly where the second one starts. -/
theorem chunk_boundary_invariance_witness :
    ((NewParser []).feed sampleConfig recorder
        [sampleBytes.take 3, (sampleBytes.drop 3).take 4, (sampleBytes.drop 7).take 11,
          sampleBytes.drop 18]).handler =
      ((NewParser []).Append sampleConfig recorder sampleBytes).1.handler ∧
    ((NewParser []).Append sampleConfig recorder sampleBytes).1.handler =
      [ ElementEvent.enter ElementId.IdSegment,
        ElementEvent.leaf ElementId.IdInfo (Value.binary [7, 8]),
        ElementEvent.enter ElementId.IdCluster,
        ElementEvent.leaf ElementId.IdTimecode (Value.uint 0),
        ElementEvent.leaf ElementId.IdSimpleBlock (Value.binary [129, 5]),
        ElementEvent.exit ElementId.IdCluster,
        ElementEvent.enter ElementId.IdCluster,
        ElementEvent.leaf ElementId.IdTimecode (Value.uint 20),
        ElementEvent.leaf ElementId.IdSimpleBlock (Value.binary [9]) ] :=
  ⟨(chunk_boundary_invariance sampleConfig recorder ebmlFraming_stable []
    [sampleBytes.take 3, (sampleBytes.drop 3).take 4, (sampleBytes.drop 7).take 11,
      sampleBytes.drop 18]).1, rfl⟩

/-- A Timecode of two bytes inside a Segment declared with three bytes
exceeds the budget of its parent: `Append` returns failure and only the
entry into the Segment was reported. -/
theorem scenario_child_exceeds_parent :
    ((NewParser []).Append sampleConfig recorder [24, 83, 128, 103, 131, 231, 130, 0, 0]).2 =
        false ∧
      ((NewParser []).Append sampleConfig recorder
          [24, 83, 128, 103, 131, 231, 130, 0, 0]).1.handler =
        [ElementEvent.enter ElementId.IdSegment] := by
  exact ⟨rfl, rfl⟩

/-! ## The read loop driving the parser -/

theorem append_result {η : Type} (cfg : ParserConfig) (H : Handler η) (s : EbmlParser η)
    (chunk : List Byte) (h : s.failed = false) :
    (s.Append cfg H chunk).2 = !(s.Append cfg H chunk).1.failed := by
  simp [EbmlParser.Append, h]

theorem iteration_good {σ : Type} (P : Parser σ) (s : LoopState σ) (r : ReadResult)
    (hr : GoodRead r) :
    (iteration P s r).parser = (P.Append s.parser r.bytes).1 ∧
      (iteration P s r).done = !(P.Append s.parser r.bytes).2 := by
  have hl : ¬ 1024 < r.bytesRead := by have := hr.2; omega
  have hc : (r.bytes ++ s.buf.drop r.bytesRead).take r.bytesRead = r.bytes :=
    take_stored r.bytes s.buf
  unfold iteration
  simp only [hr.1, hl, hc, if_false, Bool.false_eq_true]
  cases (P.Append s.parser r.bytes).2 <;> simp

/-- While the reads reach `Append`, the parser of the read loop is the
parser fed the chunks read, one `Append` per read, and the loop is done
exactly when that parser has failed. -/
theorem readLoop_parser_feed {η : Type} (cfg : ParserConfig) (H : Handler η)
    (rs : List ReadResult) (hr : ∀ r ∈ rs, GoodRead r) (s : LoopState (EbmlParser η))
    (hd : s.done = s.parser.failed) :
    (readLoop (EbmlParser.asParser cfg H) rs s).parser =
        s.parser.feed cfg H (rs.map ReadResult.bytes) ∧
      (readLoop (EbmlParser.asParser cfg H) rs s).done =
        (readLoop (EbmlParser.asParser cfg H) rs s).parser.failed := by
  induction rs generalizing s with
  | nil => exact ⟨rfl, hd⟩
  | cons r rs ih =>
    cases hdone : s.done with
    | true =>
      have hf : s.parser.failed = true := by rw [← hd, hdone]
      simp only [readLoop, hdone, if_true]
      exact ⟨(feed_failed cfg H _ _ hf).symm, hf.symm⟩
    | false =>
      have hf : s.parser.failed = false := by rw [← hd, hdone]
      obtain ⟨g1, g2⟩ := iteration_good (EbmlParser.asParser cfg H) s r (hr r (by simp))
      have hres := append_result cfg H s.parser r.bytes hf
      have hd2 : (iteration (EbmlParser.asParser cfg H) s r).done =
          (iteration (EbmlParser.asParser cfg H) s r).parser.failed := by
        rw [g1, g2]
        show (!(EbmlParser.Append cfg H s.parser r.bytes).2) =
          (EbmlParser.Append cfg H s.parser r.bytes).1.failed
        rw [hres]; simp
      obtain ⟨i1, i2⟩ := ih (fun x hx => hr x (List.mem_cons_of_mem _ hx)) _ hd2
      simp only [readLoop, hdone, Bool.false_eq_true, if_false]
      refine ⟨?_, i2⟩
      rw [i1, g1]
      rfl

/-- The read loop of `main` and the parser together: when the reads reach
`Append` until one reports the end of the stream, the handler ends in the
state a single `Append` of all the bytes read, followed by `EndOfData`,
leaves it in. -/
theorem readLoop_parser_whole {η : Type} (cfg : ParserConfig) (H : Handler η)
    (hF : cfg.framing.Stable) (h0 : η) (rs : List ReadResult) (r : ReadResult)
    (hr : ∀ x ∈ rs, GoodRead x) (he : isEndOfStream r.err = true) :
    (readLoop (EbmlParser.asParser cfg H) (rs ++ [r]) (loopInit (NewParser h0))).parser.handler =
      (EbmlParser.EndOfData H
        ((NewParser h0).Append cfg H (rs.map ReadResult.bytes).flatten).1).handler := by
  obtain ⟨m0, m2⟩ := readLoop_parser_feed cfg H rs hr (loopInit (NewParser h0)) rfl
  have m1 : (readLoop (EbmlParser.asParser cfg H) rs (loopInit (NewParser h0))).parser =
      (NewParser h0).feed cfg H (rs.map ReadResult.bytes) := m0
  have hfeed : (readLoop (EbmlParser.asParser cfg H) (rs ++ [r])
      (loopInit (NewParser h0))).parser =
      EbmlParser.EndOfData H ((NewParser h0).feed cfg H (rs.map ReadResult.bytes)) := by
    rw [readLoop_append]
    cases hdone : (readLoop (EbmlParser.asParser cfg H) rs (loopInit (NewParser h0))).done with
    | true =>
      have hf : ((NewParser h0).feed cfg H (rs.map ReadResult.bytes)).failed = true := by
        rw [← m1, ← m2, hdone]
      have hl : readLoop (EbmlParser.asParser cfg H) [r]
          (readLoop (EbmlParser.asParser cfg H) rs (loopInit (NewParser h0))) =
          readLoop (EbmlParser.asParser cfg H) rs (loopInit (NewParser h0)) :=
        readLoop_done _ _ _ hdone
      rw [hl, m1]
      simp only [EbmlParser.EndOfData, hf, if_true]
    | false =>
      simp only [readLoop, hdone, Bool.false_eq_true, if_false]
      rw [(iteration_end _ _ r he).2.2.1, m1]
      rfl
  rw [hfeed]
  exact (endOfData_agree H _ _
    (feed_agree cfg H hF _ (NewParser h0) rfl (newParser_waits cfg H hF h0))).1

end MseWebmRemuxer
